import Mathlib

/-
Verification of the pepperpal message pipeline.

The JavaScript sources are shallowly embedded: JS strings are modelled as
`List Char` (ASCII scope; the repository's data is ASCII), JS numbers used as
integer counters/timestamps as `Nat`, the 32-bit signed hash arithmetic as
`Int` with explicit wrapping, and the in-memory `Map` stores as insertion
ordered association lists with unique keys.  Regex-based transformations are
embedded as explicit scanning functions; each one carries a comment citing the
source pattern it implements.  Wall-clock time is threaded as an explicit
`now : Nat` parameter.
-/

set_option maxHeartbeats 4000000
set_option maxRecDepth 100000
set_option linter.unusedVariables false

abbrev Str := List Char

/-- Whitespace class of JS regex s-class and String.prototype.trim, restricted
to ASCII: space, tab, newline, carriage return, vertical tab, form feed. -/
def isWs (c : Char) : Bool :=
  c = ' ' || c = '\t' || c = '\n' || c = '\r' || c = Char.ofNat 11 || c = Char.ofNat 12

/-- Word character class of JS regex w-class: ASCII letters, digits, underscore. -/
def isWordC (c : Char) : Bool :=
  c.isAlphanum || c = '_'

/-- ASCII lower-casing of one character, the fragment of JS
String.prototype.toLowerCase exercised by this repository. -/
def toLowerAscii (c : Char) : Char :=
  if 65 ≤ c.toNat ∧ c.toNat ≤ 90 then Char.ofNat (c.toNat + 32) else c

/-- JS String.prototype.toLowerCase on a whole string (ASCII scope). -/
def lowerStr (l : Str) : Str := l.map toLowerAscii

/-- Remove trailing whitespace. -/
def trimEnd (l : Str) : Str := (l.reverse.dropWhile isWs).reverse

/-- JS String.prototype.trim: strip leading and trailing whitespace. -/
def trimStr (l : Str) : Str := trimEnd (l.dropWhile isWs)

/-- Scanner for whitespace-run collapsing; the flag records whether the
previous character belonged to a whitespace run that has already emitted
its single replacement space. -/
def collapseWsAux (inRun : Bool) : Str → Str
  | [] => []
  | c :: cs =>
    if isWs c then
      if inRun then collapseWsAux true cs else ' ' :: collapseWsAux true cs
    else c :: collapseWsAux false cs

/-- Global replacement of every maximal whitespace run by a single space, the
JS replace of pattern "one or more whitespace" (global) with a space. -/
def collapseWs (l : Str) : Str := collapseWsAux false l

/-- JS String.prototype.includes: substring containment test. -/
def containsSub (hay needle : Str) : Bool :=
  if needle.isPrefixOf hay then true
  else
    match hay with
    | [] => false
    | _ :: t => containsSub t needle

/-- Insertion-ordered association-list update with JS Map.set semantics:
replace in place when the key is present, append otherwise. -/
def mapSet {α β : Type} [DecidableEq α] : List (α × β) → α → β → List (α × β)
  | [], k, v => [(k, v)]
  | (k', v') :: rest, k, v =>
    if k' = k then (k, v) :: rest else (k', v') :: mapSet rest k v

/-- JS Map.get as association-list lookup. -/
def mapGet {α β : Type} [DecidableEq α] (m : List (α × β)) (k : α) : Option β :=
  m.lookup k

/-- JS Map.delete: remove the entry carrying the key. -/
def mapDelete {α β : Type} [DecidableEq α] : List (α × β) → α → List (α × β)
  | [], _ => []
  | (k', v') :: rest, k =>
    if k' = k then rest else (k', v') :: mapDelete rest k

namespace ResponseCache

/-- Constant MAX_CACHE_SIZE from constants.js. -/
def MAX_CACHE_SIZE : Nat := 500

/-- Constant CACHE_TTL.FACTS from constants.js (one hour in milliseconds),
the default ttl argument of set. -/
def CACHE_TTL_FACTS : Nat := 3600000

/-- Entry type of the response cache store. -/
structure CacheEntry where
  response : Str
  timestamp : Nat
  ttl : Nat
  hits : Nat
deriving DecidableEq

/-- The in-memory cache Map keyed by normalized query. -/
abbrev Cache := List (Str × CacheEntry)

/-- Cache-key normalization from responseCache.js: lower-case, trim, delete
every character that is neither word nor whitespace (replace of the negated
word-or-space class with nothing), then collapse whitespace runs to single
spaces. -/
def normalizeKey (query : Str) : Str :=
  collapseWs ((trimStr (lowerStr query)).filter fun c => isWordC c || isWs c)

/-- Function get of responseCache.js.  Returns the pair (hit flag, response)
together with the updated store: a fresh entry bumps its hit counter, an
expired entry is deleted lazily and reported as a miss. -/
def get (c : Cache) (query : Str) (now : Nat) : (Bool × Option Str) × Cache :=
  let key := normalizeKey query
  match mapGet c key with
  | none => ((false, none), c)
  | some entry =>
    if entry.ttl < now - entry.timestamp then
      ((false, none), mapDelete c key)
    else
      ((true, some entry.response), mapSet c key { entry with hits := entry.hits + 1 })

/-- Loop body of evictOldest: iterate over the store keeping the first key
whose timestamp is strictly smaller than everything seen before (oldestTime
starts at Infinity, modelled by the none accumulator). -/
def findOldest (c : Cache) : Option Str :=
  (c.foldl
    (fun acc p =>
      if (match acc.2 with | none => true | some t0 => p.2.timestamp < t0) then
        (some p.1, some p.2.timestamp)
      else acc)
    ((none : Option Str), (none : Option Nat))).1

/-- Function evictOldest of responseCache.js. -/
def evictOldest (c : Cache) : Cache :=
  match findOldest c with
  | some k => mapDelete c k
  | none => c

/-- Function set of responseCache.js: evict the oldest entry when at capacity,
then store the response under the normalized key with a fresh hit counter. -/
def set (c : Cache) (query response : Str) (ttl : Nat) (now : Nat) : Cache :=
  let c1 := if MAX_CACHE_SIZE ≤ c.length then evictOldest c else c
  mapSet c1 (normalizeKey query) ⟨response, now, ttl, 0⟩

/-- Display record produced by getStats for one entry. -/
structure StatEntry where
  key : Str
  hits : Nat
  ageMs : Nat
deriving DecidableEq

/-- Stable insertion of a stat entry into a list sorted by descending hits;
an element is placed after every earlier element with at least as many hits. -/
def insertByHits (e : StatEntry) : List StatEntry → List StatEntry
  | [] => [e]
  | x :: xs => if x.hits < e.hits then e :: x :: xs else x :: insertByHits e xs

/-- Stable sort by descending hit count, the JS sort with comparator
subtracting hit counts (JS Array.prototype.sort is stable, so any stable
sort with the same ordering yields the same list). -/
def sortByHitsDesc : List StatEntry → List StatEntry
  | [] => []
  | x :: xs => insertByHits x (sortByHitsDesc xs)

/-- Function getStats of responseCache.js: store size plus the ten most-hit
entries with truncated keys and ages. -/
def getStats (c : Cache) (now : Nat) : Nat × List StatEntry :=
  let entries := c.map fun p => StatEntry.mk (p.1.take 30) p.2.hits (now - p.2.timestamp)
  (c.length, (sortByHitsDesc entries).take 10)

end ResponseCache

namespace DupGuard

/-- Constant DUPLICATE_WINDOW_MS of the duplicate guard (30 seconds). -/
def DUPLICATE_WINDOW_MS : Nat := 30000

/-- Constant MAX_ENTRIES of the duplicate guard store. -/
def MAX_ENTRIES : Nat := 1000

/-- Normalization inside simpleHash: lower-case, trim, collapse whitespace
runs to single spaces.  Note: punctuation is kept. -/
def dupNormalize (t : Str) : Str := collapseWs (trimStr (lowerStr t))

/-- Wrap an integer to a signed 32-bit value, the effect of the JS bitwise
operations in simpleHash. -/
def wrap32 (i : Int) : Int :=
  let m := i % 4294967296
  if 2147483648 ≤ m then m - 4294967296 else m

/-- One loop iteration of simpleHash: hash shifted left five bits (a 32-bit
operation) minus hash plus the character code, wrapped to 32 bits by the
final bitwise and. -/
def hashStep (h : Int) (c : Char) : Int :=
  wrap32 (wrap32 (32 * h) - h + c.toNat)

/-- The integer state of simpleHash after the character loop. -/
def simpleHashInt (t : Str) : Int :=
  (dupNormalize t).foldl hashStep 0

/-- Digit characters of JS Number.prototype.toString with radix 36. -/
def digit36 (n : Nat) : Char :=
  if n < 10 then Char.ofNat (48 + n) else Char.ofNat (87 + n)

/-- Fuelled base-36 digit expansion; the fuel only serves structural
termination and is always ample at the call site. -/
def natToBase36Aux : Nat → Nat → Str
  | 0, _ => []
  | fuel + 1, n =>
    if n < 36 then [digit36 n]
    else natToBase36Aux fuel (n / 36) ++ [digit36 (n % 36)]

/-- Base-36 rendering of a natural number, as JS toString(36). -/
def natToBase36 (n : Nat) : Str := natToBase36Aux (n + 1) n

/-- JS Number.prototype.toString(36) on a (32-bit) integer. -/
def intToString36 (i : Int) : Str :=
  if i < 0 then '-' :: natToBase36 i.natAbs else natToBase36 i.toNat

/-- Function simpleHash of the duplicate guard. -/
def simpleHash (t : Str) : Str :=
  intToString36 (simpleHashInt t)

/-- Stored record of the duplicate guard. -/
structure DupRecord where
  hash : Str
  timestamp : Nat
deriving DecidableEq

/-- The recentQueries Map keyed by userId:chatId. -/
abbrev Store := List (Str × DupRecord)

/-- Decimal digit list of a natural number (JS template interpolation of a
number). -/
def natToStr (n : Nat) : Str := Nat.toDigits 10 n

/-- Function getKey of the duplicate guard. -/
def getKey (userId chatId : Nat) : Str :=
  natToStr userId ++ ':' :: natToStr chatId

/-- Function isDuplicate of the duplicate guard.  A zero userId plays the
role of a falsy JS id, an empty query that of a falsy JS string; chatId zero
falls back to userId as in the JS or-expression.  When the store is full the
first (oldest inserted) entry is removed before recording. -/
def isDuplicate (store : Store) (userId chatId : Nat) (query : Str) (now : Nat) :
    Bool × Store :=
  if userId = 0 ∨ query = [] then (false, store)
  else
    let key := getKey userId (if chatId = 0 then userId else chatId)
    let queryHash := simpleHash query
    let hit : Bool :=
      match mapGet store key with
      | some existing =>
        decide (existing.hash = queryHash) &&
          decide (now - existing.timestamp < DUPLICATE_WINDOW_MS)
      | none => false
    if hit then (true, store)
    else
      let store1 := if MAX_ENTRIES ≤ store.length then store.tail else store
      (false, mapSet store1 key ⟨queryHash, now⟩)

end DupGuard

/-- Case-insensitive literal matching: consume the pattern (given lower case)
from the input, comparing ASCII-lowered characters, and return the rest. -/
def litCI : Str → Str → Option Str
  | [], l => some l
  | _ :: _, [] => none
  | p :: ps, c :: cs => if toLowerAscii c = toLowerAscii p then litCI ps cs else none

/-- Matcher for a regex whitespace-plus atom.  Every use in this file is
followed by a non-whitespace literal, so consuming the maximal run is exact
(no backtracking into the run can ever help). -/
def ws1 : Str → Option Str
  | [] => none
  | c :: cs => if isWs c then some (cs.dropWhile isWs) else none

/-- Word test on the optional preceding character (none at string start). -/
def isWordOpt : Option Char → Bool
  | some c => isWordC c
  | none => false

/-- Closing word-boundary test: the next character is absent or non-word. -/
def bAfter : Str → Bool
  | [] => true
  | c :: _ => !(isWordC c)

/-- Sequencing helper: consume a case-insensitive literal then continue. -/
def seqCI (pat : String) (k : Str → Bool) (l : Str) : Bool :=
  match litCI pat.toList l with
  | some r => k r
  | none => false

/-- Sequencing helper: consume mandatory whitespace then continue. -/
def seqWs (k : Str → Bool) (l : Str) : Bool :=
  match ws1 l with
  | some r => k r
  | none => false

/-- Scan every position of the string (tracking the previous character for
word boundaries) and report whether the position matcher fires anywhere;
this is the regex test method of a non-anchored pattern. -/
def searchAux (m : Option Char → Str → Bool) : Option Char → Str → Bool
  | prev, [] => m prev []
  | prev, c :: cs => m prev (c :: cs) || searchAux m (some c) cs

/-- Regex test over the whole string. -/
def search (m : Option Char → Str → Bool) (l : Str) : Bool :=
  searchAux m none l

namespace Validator

/-- Constant MIN_RESPONSE_LENGTH from constants.js. -/
def MIN_RESPONSE_LENGTH : Nat := 10

/-- Constant HARD_CHAR_LIMIT from constants.js. -/
def HARD_CHAR_LIMIT : Nat := 3500

/-- Constant SOFT_CHAR_LIMIT from constants.js. -/
def SOFT_CHAR_LIMIT : Nat := 3000

/-- Forbidden output pattern 1, case-insensitive: word-bounded "as",
whitespace, "a" with optional "n", whitespace, then one of "ai",
"artificial intelligence" (whitespace-separated), "language model", "llm",
closed by a word boundary.  Alternatives are tried in source order with the
full continuation, as the JS engine does. -/
def pat1 (prev : Option Char) (l : Str) : Bool :=
  !(isWordOpt prev) &&
    seqCI "as"
      (seqWs fun r =>
        let tail := seqWs fun r2 =>
          (seqCI "ai" bAfter r2) ||
          (seqCI "artificial" (seqWs (seqCI "intelligence" bAfter)) r2) ||
          (seqCI "language" (seqWs (seqCI "model" bAfter)) r2) ||
          (seqCI "llm" bAfter r2)
        seqCI "a" (fun r1 => seqCI "n" tail r1 || tail r1) r)
      l

/-- Forbidden output pattern 2, case-insensitive: word-bounded "i",
optional apostrophe, "m", whitespace, optional "just" plus whitespace,
"a" or "an", whitespace, then "bot", "ai" or "language model", closed by a
word boundary. -/
def pat2 (prev : Option Char) (l : Str) : Bool :=
  !(isWordOpt prev) &&
    seqCI "i"
      (fun r0 =>
        let afterM := seqWs fun r2 =>
          let core := fun r3 =>
            seqWs
              (fun r4 =>
                (seqCI "bot" bAfter r4) ||
                (seqCI "ai" bAfter r4) ||
                (seqCI "language" (seqWs (seqCI "model" bAfter)) r4))
              r3
          let aOrAn := fun r3 => seqCI "a" (fun r4 => core r4) r3 || seqCI "an" core r3
          (seqCI "just" (seqWs aOrAn) r2) || aOrAn r2
        let mThen := seqCI "m" afterM
        (match r0 with
         | c :: cs => if c = Char.ofNat 39 then mThen cs || mThen r0 else mThen r0
         | [] => mThen r0))
      l

/-- Forbidden output pattern 3, case-insensitive: word-bounded "i",
whitespace, "am", whitespace, "a" or "an", whitespace, then "ai", "bot" or
"language model"; the source pattern has no closing word boundary. -/
def pat3 (prev : Option Char) (l : Str) : Bool :=
  !(isWordOpt prev) &&
    seqCI "i"
      (seqWs (seqCI "am" (seqWs fun r2 =>
        let core := seqWs fun r4 =>
          (seqCI "ai" (fun _ => true) r4) ||
          (seqCI "bot" (fun _ => true) r4) ||
          (seqCI "language" (seqWs (seqCI "model" fun _ => true)) r4)
        seqCI "a" (fun r3 => seqCI "n" core r3 || core r3) r2)))
      l

/-- Forbidden output pattern 4, case-insensitive: word boundary then
"system prompt" (whitespace-separated), "openrouter" or "api key". -/
def pat4 (prev : Option Char) (l : Str) : Bool :=
  !(isWordOpt prev) &&
    ((seqCI "system" (seqWs (seqCI "prompt" fun _ => true)) l) ||
     (seqCI "openrouter" (fun _ => true) l) ||
     (seqCI "api" (seqWs (seqCI "key" fun _ => true)) l))

/-- Forbidden output pattern 5, case-insensitive: word boundary then
"knowledge file" (whitespace-separated) or the literal "peppercoin.md". -/
def pat5 (prev : Option Char) (l : Str) : Bool :=
  !(isWordOpt prev) &&
    ((seqCI "knowledge" (seqWs (seqCI "file" fun _ => true)) l) ||
     (seqCI "peppercoin.md" (fun _ => true) l))

/-- Forbidden output pattern 6, case-insensitive: word-bounded "buy" or
"sell", whitespace, then "now", "immediately", "today" or "soon" closed by
a word boundary. -/
def pat6 (prev : Option Char) (l : Str) : Bool :=
  !(isWordOpt prev) &&
    (let tail := seqWs fun r =>
      (seqCI "now" bAfter r) || (seqCI "immediately" bAfter r) ||
      (seqCI "today" bAfter r) || (seqCI "soon" bAfter r)
     (seqCI "buy" tail l) || (seqCI "sell" tail l))

/-- Forbidden output pattern 7, case-insensitive: word-bounded "guaranteed",
whitespace, then "return" or "profit". -/
def pat7 (prev : Option Char) (l : Str) : Bool :=
  !(isWordOpt prev) &&
    seqCI "guaranteed"
      (seqWs fun r => (seqCI "return" (fun _ => true) r) || (seqCI "profit" (fun _ => true) r))
      l

/-- Forbidden output pattern 8, case-insensitive: word-bounded "price",
whitespace, "will", "should" or "going to", whitespace, then "go", "rise",
"fall" or "moon". -/
def pat8 (prev : Option Char) (l : Str) : Bool :=
  !(isWordOpt prev) &&
    seqCI "price"
      (seqWs fun r =>
        let tail := seqWs fun r2 =>
          (seqCI "go" (fun _ => true) r2) || (seqCI "rise" (fun _ => true) r2) ||
          (seqCI "fall" (fun _ => true) r2) || (seqCI "moon" (fun _ => true) r2)
        (seqCI "will" tail r) || (seqCI "should" tail r) ||
        (seqCI "going" (seqWs (seqCI "to" tail)) r))
      l

/-- The FORBIDDEN_OUTPUT_PATTERNS loop of validator.js: the text is rejected
when any of the eight patterns matches anywhere. -/
def forbiddenAny (t : Str) : Bool :=
  search pat1 t || search pat2 t || search pat3 t || search pat4 t ||
  search pat5 t || search pat6 t || search pat7 t || search pat8 t

end Validator

/-- Collapse every newline run to a single newline: state machine form of
the JS replace of two-or-more newlines (global) with one newline used by
the compressor (a lone newline is re-emitted unchanged, a longer run emits
one newline in total, which is exactly that replace).  The flag records
that the current run has already emitted its newline. -/
def collapseNl2Aux (inRun : Bool) : Str → Str
  | [] => []
  | c :: cs =>
    if c = '\n' then
      if inRun then collapseNl2Aux true cs else '\n' :: collapseNl2Aux true cs
    else c :: collapseNl2Aux false cs

/-- Entry point of the newline-pair collapsing replace. -/
def collapseNl2 (l : Str) : Str := collapseNl2Aux false l

/-- Collapse every newline run of length at least three to two newlines, the
JS replace of three-or-more newlines (global) with a double newline: each
maximal run emits at most two newlines, counted by the state. -/
def collapseNl3Aux (run : Nat) : Str → Str
  | [] => []
  | c :: cs =>
    if c = '\n' then
      if 2 ≤ run then collapseNl3Aux run cs
      else '\n' :: collapseNl3Aux (run + 1) cs
    else c :: collapseNl3Aux 0 cs

/-- Entry point of the newline-triple collapsing replace. -/
def collapseNl3 (l : Str) : Str := collapseNl3Aux 0 l

/-- Space-or-tab test, the horizontal whitespace class of the sources. -/
def isST (c : Char) : Bool := c = ' ' || c = '\t'

/-- Collapse every run of two or more spaces/tabs to one space, the JS
replace of the repeated horizontal-whitespace class (global) with a space. -/
def collapseST2Aux : Bool → Str → Str
  | _, [] => []
  | true, c :: cs =>
    if isST c then collapseST2Aux true cs else c :: collapseST2Aux false cs
  | false, c :: c2 :: cs =>
    if isST c && isST c2 then ' ' :: collapseST2Aux true cs
    else c :: collapseST2Aux false (c2 :: cs)
  | false, [c] => [c]

/-- Entry point of the horizontal-whitespace collapsing replace. -/
def collapseST2 (l : Str) : Str := collapseST2Aux false l

/-- Replace every CRLF pair by a newline (JS global replace). -/
def replCRLF : Str → Str
  | [] => []
  | [c] => [c]
  | c :: c2 :: cs =>
    if c = '\r' ∧ c2 = '\n' then '\n' :: replCRLF cs else c :: replCRLF (c2 :: cs)

/-- Replace every remaining carriage return by a newline. -/
def replCR (l : Str) : Str := l.map fun c => if c = '\r' then '\n' else c

/-- JS String.prototype.lastIndexOf for a substring: the greatest index at
which the pattern occurs, if any. -/
def lastIndexOfSub (hay pat : Str) : Option Nat :=
  go 0 hay none
where
  go : Nat → Str → Option Nat → Option Nat
    | i, rest, best =>
      let best' := if pat.isPrefixOf rest then some i else best
      match rest with
      | [] => best'
      | _ :: t => go (i + 1) t best'

namespace Compressor

/-- Function getFirstSentence of compressor.js: the anchored match of one or
more non-terminator characters followed by a sentence terminator, trimmed;
with no such match the first hundred characters, trimmed. -/
def getFirstSentence (text : Str) : Str :=
  let a := text.takeWhile fun c => !(c = '.' || c = '!' || c = '?')
  match (text.drop a.length).head? with
  | some t => if a.isEmpty then trimStr (text.take 100) else trimStr (a ++ [t])
  | none => trimStr (text.take 100)

/-- Hexadecimal-digit class of the contract-address regex. -/
def isHexC (c : Char) : Bool :=
  c.isDigit || ('a' ≤ c && c ≤ 'f') || ('A' ≤ c && c ≤ 'F')

/-- Positional matcher for the contract-address regex: literal zero, literal
x, then forty hexadecimal characters. -/
def matchContractAt : Str → Option Str
  | c :: d :: rest =>
    if c = '0' ∧ d = 'x' then
      (let h := rest.takeWhile isHexC
       if 40 ≤ h.length then some ('0' :: 'x' :: h.take 40) else none)
    else none
  | _ => none

/-- First (leftmost) contract-address match in the text, as JS String.match
with a non-global regex. -/
def findContract : Str → Option Str
  | [] => none
  | c :: cs =>
    match matchContractAt (c :: cs) with
    | some m => some m
    | none => findContract cs

/-- Function extractFacts of compressor.js: a contract-address line when one
occurs, then a chain-id line when the text mentions 88888. -/
def extractFacts (text : Str) : List Str :=
  (match findContract text with
   | some m => ["Contract: ".toList ++ m]
   | none => []) ++
  (if containsSub text "88888".toList then ["Chain ID: 88888".toList] else [])

/-- Function hardTruncate of compressor.js.  The fractional comparisons of
the source (index greater than half, respectively three fifths, of the
limit) are written over the integers; the index is an Int so that the JS
minus-one sentinel of lastIndexOf is preserved. -/
def hardTruncate (text : Str) (limit : Nat) : Str :=
  if text.length ≤ limit then text
  else
    let truncated := text.take (limit - 20)
    let lastSentence : Int :=
      match lastIndexOfSub truncated ". ".toList with
      | some i => (i : Int)
      | none => -1
    if 2 * lastSentence > (limit : Int) then
      truncated.take (lastSentence.toNat + 1) ++ "\n\nSay MORE.".toList
    else
      let lastNewline : Int :=
        match lastIndexOfSub truncated "\n".toList with
        | some i => (i : Int)
        | none => -1
      if 5 * lastNewline > 3 * (limit : Int) then
        truncated.take lastNewline.toNat ++ "\n\nSay MORE.".toList
      else truncated ++ "...".toList

/-- Function compress of compressor.js: return short texts unchanged,
otherwise collapse blank lines, and if still over target rebuild from the
first sentence plus key facts, with a continuation notice when the text was
half as long again as the target, hard-truncating as a last resort. -/
def compress (text : Str) (targetLength : Nat) : Str :=
  if text.length ≤ targetLength then text
  else
    let c1 := collapseNl2 text
    if c1.length ≤ targetLength then c1
    else
      let firstSentence := getFirstSentence text
      let keyFacts := extractFacts text
      let c2 := keyFacts.foldl
        (fun acc fact =>
          if ((acc.length + 1 + fact.length : Int) < (targetLength : Int) - 30) then
            acc ++ '\n' :: fact
          else acc)
        firstSentence
      let c3 :=
        if 2 * text.length > 3 * targetLength then
          c2 ++ "\n\nSay MORE for full details.".toList
        else c2
      if targetLength < c3.length then hardTruncate c3 targetLength else c3

end Compressor

namespace Validator

/-- Sentence terminators of the completeness checks. -/
def isTermC (c : Char) : Bool := c = '.' || c = '!' || c = '?'

/-- Dash, colon and comma class of the incomplete-punctuation checks
(hyphen, en dash, em dash, colon, comma). -/
def isDashPunct (c : Char) : Bool :=
  c = '-' || c = '–' || c = '—' || c = ':' || c = ','

/-- JS String.prototype.slice with a negative start: the last n characters
(or the whole string when shorter). -/
def lastN (n : Nat) (l : Str) : Str := l.drop (l.length - n)

/-- Emoji test of detectIncomplete: the final character lies in the
codepoint range 1F300 to 1F9FF. -/
def isEmojiC (c : Char) : Bool := 127744 ≤ c.toNat && c.toNat ≤ 129535

/-- Test for an unclosed opening bracket: the regex "open bracket followed
only by non-closing characters to the end" matches exactly when the text
contains the opener and no closer occurs after its last occurrence. -/
def hasUnclosed (openC closeC : Char) (l : Str) : Bool :=
  let r := l.reverse
  let seg := r.takeWhile fun c => c ≠ openC
  seg.length < r.length && !(seg.contains closeC)

/-- Dangling words of the incomplete-phrase check, in source order. -/
def danglingWords : List String :=
  ["like", "such as", "including", "and", "or", "the", "a", "an", "to",
   "for", "with", "on", "at"]

/-- Test that the string ends with the given (lower-case) word preceded by a
word boundary; the trailing whitespace-star of the source pattern is empty
because the tested string is already trimmed. -/
def endsWithWordB (w : String) (l : Str) : Bool :=
  let wl := w.toList
  let k := l.length - wl.length
  wl.length ≤ l.length && decide (lowerStr (l.drop k) = wl) &&
    (match (l.take k).getLast? with
     | none => true
     | some c => !(isWordC c))

/-- Test of the incomplete-list-item pattern: at least one digit directly
followed by a final dot (the whitespace-star being empty on trimmed text). -/
def endsWithNumDot (l : Str) : Bool :=
  match l.getLast? with
  | some '.' =>
    match l.dropLast.getLast? with
    | some d => d.isDigit
    | none => false
  | _ => false

/-- Function detectIncomplete of validator.js, reduced to its boolean result
(the reason string is only logged by the source).  Texts shorter than fifty
characters are never flagged; the checks run on the trimmed text and on its
last twenty characters exactly as in the source. -/
def detectIncomplete (text : Str) : Bool :=
  if text.length < 50 then false
  else
    let trimmed := trimStr text
    let last20 := lastN 20 trimmed
    if (match trimmed.getLast? with | some c => isTermC c | none => false) then false
    else if (match trimmed.getLast? with | some c => isEmojiC c | none => false) then false
    else if (match trimmed.getLast? with | some c => isDashPunct c | none => false) then true
    else if hasUnclosed '(' ')' last20 || hasUnclosed '[' ']' last20 then true
    else if danglingWords.any (fun w => endsWithWordB w last20) then true
    else if endsWithNumDot last20 then true
    else false

/-- Removal of a trailing "newline, digits, dot, whitespace" list fragment,
the second trailing replace of fixIncompleteResponse; returns none when the
pattern does not match at the end. -/
def dropTrailNumItem (l : Str) : Option Str :=
  let r := l.reverse
  let r1 := r.dropWhile isWs
  match r1 with
  | '.' :: r2 =>
    let ds := r2.takeWhile Char.isDigit
    if !ds.isEmpty && (r2.drop ds.length).head? = some '\n' then
      some ((r2.drop (ds.length + 1)).reverse)
    else none
  | _ => none

/-- Cut from the first opening parenthesis that has no closing parenthesis
after it (the leftmost match of the unclosed-parenthetical regex); the text
is returned unchanged when no such position exists. -/
def cutUnclosedParen (l : Str) : Str :=
  go [] l
where
  go : Str → Str → Str
    | _, [] => l
    | acc, c :: cs =>
      if c = '(' && !(cs.contains ')') then acc.reverse else go (c :: acc) cs

/-- Function fixIncompleteResponse of validator.js: trim, strip one trailing
dash-class character, strip a trailing numbered-list fragment, drop an
unclosed trailing parenthetical when the parentheses are unbalanced, then
re-trim, add an ellipsis when no terminator ends the text, and append the
truncation notice. -/
def fixIncompleteResponse (text : Str) : Str :=
  let f0 := trimStr text
  let f1 :=
    match f0.getLast? with
    | some c => if isDashPunct c then f0.dropLast else f0
    | none => f0
  let f2 := (dropTrailNumItem f1).getD f1
  let opens := f2.count '('
  let closes := f2.count ')'
  let f3 := if closes < opens then cutUnclosedParen f2 else f2
  let f4 := trimStr f3
  let f5 :=
    if (match f4.getLast? with | some c => isTermC c | none => false) then f4
    else f4 ++ "...".toList
  f5 ++ "\n\n(Response was truncated. Ask a more specific question for details.)".toList

/-- Function hardTruncate of validator.js (sentence boundary, then word
boundary, then hard cut); fractional comparisons written over the integers
as in the compressor. -/
def hardTruncate (text : Str) (limit : Nat) : Str :=
  if text.length ≤ limit then text
  else
    let truncated := text.take limit
    let lastSentence : Int :=
      match lastIndexOfSub truncated ". ".toList with
      | some i => (i : Int)
      | none => -1
    if 5 * lastSentence > 3 * (limit : Int) then
      truncated.take (lastSentence.toNat + 1)
    else
      let lastSpace : Int :=
        match lastIndexOfSub truncated " ".toList with
        | some i => (i : Int)
        | none => -1
      if 5 * lastSpace > 4 * (limit : Int) then
        truncated.take lastSpace.toNat ++ "...".toList
      else truncated.take (limit - 3) ++ "...".toList

/-- Function normalizeWhitespace of validator.js: CRLF and CR to newline,
newline runs of three or more to two, horizontal-whitespace runs to one
space, then trim. -/
def normalizeWhitespace (text : Str) : Str :=
  trimStr (collapseST2 (collapseNl3 (replCR (replCRLF text))))

/-- Result type of validate. -/
structure ValidatedResponse where
  valid : Bool
  text : Str
  wasCompressed : Bool
  error : Option Str
deriving DecidableEq

/-- Record produced by the generator stage. -/
structure GeneratedResponse where
  text : Str
  tokensUsed : Nat
  fromCache : Bool
  fromTemplate : Bool
  generationTimeMs : Nat
deriving DecidableEq

/-- Step 2 of validate when the text is over the hard limit: compress to the
soft limit and hard-truncate if compression still leaves it over. -/
def lengthStage (t : Str) : Str :=
  let c := Compressor.compress t SOFT_CHAR_LIMIT
  if HARD_CHAR_LIMIT < c.length then hardTruncate c HARD_CHAR_LIMIT else c

/-- Function validate of validator.js.  The steps run in source order:
minimum length, length correction (compression before the forbidden scan),
forbidden-output patterns, whitespace normalization, incompleteness repair,
final emptiness check.  The charBudget parameter is accepted and, as in the
source, never read. -/
def validate (generated : GeneratedResponse) (charBudget : Nat) : ValidatedResponse :=
  let text0 := generated.text
  if text0.length < MIN_RESPONSE_LENGTH then
    ⟨false, [], false, some "Response too short".toList⟩
  else
    let over := HARD_CHAR_LIMIT < text0.length
    let text1 := if over then lengthStage text0 else text0
    let wasCompressed := over
    if forbiddenAny text1 then
      ⟨false, [], wasCompressed, some "Contains forbidden content".toList⟩
    else
      let text2 := normalizeWhitespace text1
      let text3 := if detectIncomplete text2 then fixIncompleteResponse text2 else text2
      if text3.length = 0 then
        ⟨false, [], wasCompressed, some "Empty after processing".toList⟩
      else ⟨true, text3, wasCompressed, none⟩

end Validator

namespace Generator

/-- Outcome of the single remote-model call inside generateFromAI: a
successful completion carrying content and the reported token usage, a
result with success false (timeout or upstream error surfaced by the
client), or a thrown exception caught by the try block. -/
inductive AIOutcome where
  | ok (content : Str) (totalTokens : Nat)
  | failed
  | thrown
deriving DecidableEq

/-- The fixed apologetic text returned by generateFromAI on any request
failure. -/
def apologyText : Str :=
  "I encountered an issue generating a response. Please try again.".toList

/-- The fixed text returned by generateFromAI when the knowledge base is
unavailable. -/
def knowledgeUnavailText : Str :=
  "I am temporarily unable to access my knowledge base. Please try again later.".toList

/-- Function generateFromAI of the generator, with the remote call and the
knowledge-availability probe supplied as parameters (they are external
effects); timing metadata is modelled as zero.  Success yields the remote
content with its token count; an unavailable knowledge base, a non-success
result, and a thrown error each yield a fixed text with zero tokens, and no
exception escapes. -/
def generateFromAI (knowledgeOK : Bool) (outcome : AIOutcome) :
    Validator.GeneratedResponse :=
  if !knowledgeOK then ⟨knowledgeUnavailText, 0, false, false, 0⟩
  else
    match outcome with
    | .ok content totalTokens => ⟨content, totalTokens, false, false, 0⟩
    | .failed => ⟨apologyText, 0, false, false, 0⟩
    | .thrown => ⟨apologyText, 0, false, false, 0⟩

/-- The generate-strategy tail of function generate in the generator: run
generateFromAI, then write the text into the response cache exactly when it
is non-empty and does not contain the substring error.  Returns the
generated response together with the cache store after the run. -/
def generateGenStrategy (query : Str) (knowledgeOK : Bool) (outcome : AIOutcome)
    (cache : ResponseCache.Cache) (now : Nat) :
    Validator.GeneratedResponse × ResponseCache.Cache :=
  let aiResponse := generateFromAI knowledgeOK outcome
  let cache' :=
    if !aiResponse.text.isEmpty && !(containsSub aiResponse.text "error".toList) then
      ResponseCache.set cache query aiResponse.text ResponseCache.CACHE_TTL_FACTS now
    else cache
  (aiResponse, cache')

end Generator


/-- Fuelled leftmost global-replace engine, the semantics of a JS
String.prototype.replace with the g flag: scan positions left to right,
tracking the previous original character (for line anchors and word
boundaries); on a match emit the replacement and resume after the consumed
characters.  Every matcher of this file consumes at least one character; a
zero-length answer is defensively treated as no match.  The fuel only
provides structural termination and is ample at the entry point. -/
def runReplAux (m : Option Char → Str → Option (Nat × Str)) :
    Nat → Option Char → Str → Str
  | 0, _, l => l
  | _ + 1, _, [] => []
  | fuel + 1, prev, c :: cs =>
    match m prev (c :: cs) with
    | some (k, r) =>
      if k = 0 then c :: runReplAux m fuel (some c) cs
      else r ++ runReplAux m fuel (some ((c :: cs).getD (k - 1) c)) ((c :: cs).drop k)
    | none => c :: runReplAux m fuel (some c) cs

/-- Global replace over a whole string. -/
def runRepl (m : Option Char → Str → Option (Nat × Str)) (l : Str) : Str :=
  runReplAux m (l.length + 1) none l

/-- Line-start test for the m flag: start of string or just after a
newline. -/
def atLS : Option Char → Bool
  | none => true
  | some c => c = '\n'

/-- Case-sensitive literal consumption. -/
def litEx (pat : Str) (l : Str) : Option Str :=
  if pat.isPrefixOf l then some (l.drop pat.length) else none

/-- Largest whitespace prefix length j such that the position after j is at
a line end (end of string or facing a newline): the greedy backtracking of a
whitespace-star followed by a multiline end anchor. -/
def wsToLineEnd (l : Str) : Option Nat :=
  go (l.takeWhile isWs).length
where
  lineEnd (j : Nat) : Bool :=
    match (l.drop j).head? with
    | none => true
    | some c => c = '\n'
  go : Nat → Option Nat
    | 0 => if lineEnd 0 then some 0 else none
    | j + 1 => if lineEnd (j + 1) then some (j + 1) else go j

namespace Formatter

/-- Matcher for a pair of identical delimiters around a non-empty segment
free of the banned character, covering the bold, italic, inline-code and
strikethrough rules of stripMarkdown; the segment is kept. -/
def mWrap (dl : Str) (ban : Char) (l : Str) : Option (Nat × Str) :=
  match litEx dl l with
  | some r1 =>
    let seg := r1.takeWhile fun c => c ≠ ban
    if seg.isEmpty then none
    else
      match litEx dl (r1.drop seg.length) with
      | some _ => some (dl.length + seg.length + dl.length, seg)
      | none => none
  | none => none

/-- Backtick character (code-fence delimiter). -/
def btick : Char := Char.ofNat 96

/-- Replacement callback of the fenced-code rule: inside the match, delete
every fence together with an attached word run and optional newline, then
trim. -/
def fenceRepl (seg : Str) : Str :=
  let s1 := seg.dropWhile isWordC
  let s2 := match s1 with | '\n' :: t => t | _ => s1
  trimStr s2

/-- Matcher of the fenced-code rule: triple backtick, a non-empty segment
without backticks, triple backtick. -/
def mFence (l : Str) : Option (Nat × Str) :=
  match litEx [btick, btick, btick] l with
  | some r1 =>
    let seg := r1.takeWhile fun c => c ≠ btick
    if seg.isEmpty then none
    else
      match litEx [btick, btick, btick] (r1.drop seg.length) with
      | some _ => some (6 + seg.length, fenceRepl seg)
      | none => none
  | none => none

/-- Matcher of the header rule: at line start, one to six hashes followed by
mandatory whitespace, all deleted. -/
def mHeader (prev : Option Char) (l : Str) : Option (Nat × Str) :=
  if !atLS prev then none
  else
    let hs := l.takeWhile fun c => c = '#'
    if hs.length = 0 || 6 < hs.length then none
    else
      let ws := (l.drop hs.length).takeWhile isWs
      if ws.isEmpty then none else some (hs.length + ws.length, [])

/-- The replacement text of the list-marker rule as committed in the source
file: the three-character mojibake rendering of a bullet, then a space. -/
def bulletGlyph : Str := ['â', '€', '¢', ' ']

/-- Matcher of the list-marker rule: at line start, one dash, star or plus
followed by mandatory whitespace, replaced by the bullet glyph. -/
def mListMarker (prev : Option Char) (l : Str) : Option (Nat × Str) :=
  if !atLS prev then none
  else
    match l with
    | c :: rest =>
      if c = '-' || c = '*' || c = '+' then
        let ws := rest.takeWhile isWs
        if ws.isEmpty then none else some (1 + ws.length, bulletGlyph)
      else none
    | [] => none

/-- Matcher of the markdown-link rule: bracketed non-empty text followed by
a parenthesized, possibly empty, URL part; the text is kept. -/
def mMdLink (l : Str) : Option (Nat × Str) :=
  match l with
  | '[' :: r1 =>
    let seg := r1.takeWhile fun c => c ≠ ']'
    if seg.isEmpty then none
    else
      match r1.drop seg.length with
      | ']' :: '(' :: r2 =>
        let seg2 := r2.takeWhile fun c => c ≠ ')'
        match (r2.drop seg2.length).head? with
        | some _ => some (seg.length + seg2.length + 4, seg)
        | none => none
      | _ => none
  | _ => none

/-- Matcher of the broken-link rule: bracketed non-empty text followed by a
lone opening parenthesis; the text is kept. -/
def mMdLinkOpen (l : Str) : Option (Nat × Str) :=
  match l with
  | '[' :: r1 =>
    let seg := r1.takeWhile fun c => c ≠ ']'
    if seg.isEmpty then none
    else
      match r1.drop seg.length with
      | ']' :: '(' :: _ => some (seg.length + 3, seg)
      | _ => none
  | _ => none

/-- Matcher of the plain-bracket rule: bracketed non-empty text, kept
without the brackets. -/
def mBracket (l : Str) : Option (Nat × Str) :=
  match l with
  | '[' :: r1 =>
    let seg := r1.takeWhile fun c => c ≠ ']'
    if seg.isEmpty then none
    else
      match (r1.drop seg.length).head? with
      | some _ => some (seg.length + 2, seg)
      | none => none
  | _ => none

/-- Matcher of the image rule: bang, bracketed possibly-empty text, then a
parenthesized non-empty part, all deleted. -/
def mImage (l : Str) : Option (Nat × Str) :=
  match l with
  | '!' :: '[' :: r1 =>
    let seg := r1.takeWhile fun c => c ≠ ']'
    match r1.drop seg.length with
    | ']' :: '(' :: r2 =>
      let seg2 := r2.takeWhile fun c => c ≠ ')'
      if seg2.isEmpty then none
      else
        match (r2.drop seg2.length).head? with
        | some _ => some (seg.length + seg2.length + 5, [])
        | none => none
    | _ => none
  | _ => none

/-- Matcher of the horizontal-rule rule: at line start, three or more
dashes, stars or underscores up to the line end, deleted. -/
def mHRule (prev : Option Char) (l : Str) : Option (Nat × Str) :=
  if !atLS prev then none
  else
    let run := l.takeWhile fun c => c = '-' || c = '*' || c = '_'
    if run.length < 3 then none
    else
      match (l.drop run.length).head? with
      | none => some (run.length, [])
      | some c => if c = '\n' then some (run.length, []) else none

/-- Matcher of the blockquote rule: at line start, a greater-than sign and
any following whitespace, deleted. -/
def mBlockquote (prev : Option Char) (l : Str) : Option (Nat × Str) :=
  if !atLS prev then none
  else
    match l with
    | '>' :: rest => some (1 + (rest.takeWhile isWs).length, [])
    | _ => none

/-- Function stripMarkdown of the formatter: the fourteen replaces of the
source, applied as successive global passes in source order. -/
def stripMarkdown (text : Str) : Str :=
  let t1 := runRepl (fun _ l => mWrap ['*', '*'] '*' l) text
  let t2 := runRepl (fun _ l => mWrap ['*'] '*' l) t1
  let t3 := runRepl (fun _ l => mWrap ['_', '_'] '_' l) t2
  let t4 := runRepl (fun _ l => mWrap ['_'] '_' l) t3
  let t5 := runRepl (fun _ l => mFence l) t4
  let t6 := runRepl (fun _ l => mWrap [btick] btick l) t5
  let t7 := runRepl mHeader t6
  let t8 := runRepl mListMarker t7
  let t9 := runRepl (fun _ l => mMdLink l) t8
  let t10 := runRepl (fun _ l => mMdLinkOpen l) t9
  let t11 := runRepl (fun _ l => mBracket l) t10
  let t12 := runRepl (fun _ l => mImage l) t11
  let t13 := runRepl (fun _ l => mWrap ['~', '~'] '~' l) t12
  let t14 := runRepl mHRule t13
  runRepl mBlockquote t14

/-- Function cleanWhitespace of the formatter: CRLF and CR to newline,
newline runs of three or more to two, horizontal runs to one space, lines
of pure whitespace emptied (a line-start whitespace run reaching a line
end, greedily backtracked), then trim. -/
def cleanWhitespace (text : Str) : Str :=
  let t1 := collapseST2 (collapseNl3 (replCR (replCRLF text)))
  let t2 := runRepl
    (fun prev l =>
      if !atLS prev then none
      else
        match wsToLineEnd l with
        | some j => if j = 0 then none else some (j, [])
        | none => none)
    t1
  trimStr t2

end Formatter

namespace VerifiedLinks

/-- Character class of a domain label in the URL-shaped patterns: letters,
digits, underscore, hyphen. -/
def isDomC (c : Char) : Bool := c.isAlphanum || c = '_' || c = '-'

/-- Top-level domains of the domain-shaped patterns, in source order. -/
def TLDS : List String := ["com", "org", "net", "io", "xyz", "me", "co", "chain", "tv", "gg", "app"]

/-- First top-level-domain alternative (case-insensitive) matching at this
position; nothing constrains the pattern after the alternation, so the
first literal match is the one the JS engine commits to. -/
def matchTld : List String → Str → Option Nat
  | [], _ => none
  | t :: ts, l =>
    match litCI t.toList l with
    | some _ => some t.length
    | none => matchTld ts l

/-- Matcher of the full-URL rule (case-insensitive): http, optional s,
colon-slash-slash, then one or more characters that are neither whitespace
nor angle brackets; deleted. -/
def mUrl (l : Str) : Option (Nat × Str) :=
  match litCI "http".toList l with
  | some r1 =>
    let after := fun (consumedS : Nat) (r : Str) =>
      match litEx "://".toList r with
      | some r2 =>
        let seg := r2.takeWhile fun c => !(isWs c) && c ≠ '<' && c ≠ '>'
        if seg.isEmpty then none
        else some (4 + consumedS + 3 + seg.length, ([] : Str))
      | none => none
    (match r1 with
     | c :: cs =>
       if toLowerAscii c = 's' then
         match after 1 cs with
         | some a => some a
         | none => after 0 r1
       else after 0 r1
     | [] => none)
  | none => none

/-- Matcher of the www rule (case-insensitive): www-dot, one alphanumeric,
then any run free of whitespace and angle brackets; deleted. -/
def mWww (l : Str) : Option (Nat × Str) :=
  match litCI "www.".toList l with
  | some r1 =>
    match r1 with
    | c :: cs =>
      if c.isAlphanum then
        some (5 + (cs.takeWhile fun c2 => !(isWs c2) && c2 ≠ '<' && c2 ≠ '>').length, ([] : Str))
      else none
    | [] => none
  | none => none

/-- Matcher of the two-label domain rule: label, dot, label, dot, a listed
top-level domain, then any non-whitespace run; deleted. -/
def mDomain2 (l : Str) : Option (Nat × Str) :=
  let d1 := l.takeWhile isDomC
  if d1.isEmpty then none
  else
    match l.drop d1.length with
    | '.' :: r2 =>
      let d2 := r2.takeWhile isDomC
      if d2.isEmpty then none
      else
        match r2.drop d2.length with
        | '.' :: r3 =>
          match matchTld TLDS r3 with
          | some tl =>
            let rest := (r3.drop tl).takeWhile fun c => !(isWs c)
            some (d1.length + 1 + d2.length + 1 + tl + rest.length, ([] : Str))
          | none => none
        | _ => none
    | _ => none

/-- Matcher of the one-label domain rule: label, dot, a listed top-level
domain, then any non-whitespace run; deleted. -/
def mDomain1 (l : Str) : Option (Nat × Str) :=
  let d1 := l.takeWhile isDomC
  if d1.isEmpty then none
  else
    match l.drop d1.length with
    | '.' :: r2 =>
      match matchTld TLDS r2 with
      | some tl =>
        let rest := (r2.drop tl).takeWhile fun c => !(isWs c)
        some (d1.length + 1 + tl + rest.length, ([] : Str))
      | none => none
    | _ => none

/-- Alternatives of the orphan-subdomain rule, in source order. -/
def A5ALTS : List String := ["app", "www", "t", "m", "api", "docs"]

/-- Matcher of the orphan-subdomain rule (case-insensitive, multiline):
word-bounded alternative, a dot, then whitespace up to a line end; the
whitespace (group two) is kept while the alternative and dot are deleted.
The second alternative of the source group, whitespace then a literal
newline, is subsumed by the first under the multiline flag (the dollar
already matches before every newline) and can never fire. -/
def mOrphan (prev : Option Char) (l : Str) : Option (Nat × Str) :=
  if isWordOpt prev then none
  else go A5ALTS
where
  go : List String → Option (Nat × Str)
    | [] => none
    | alt :: rest =>
      match
        (match litCI alt.toList l with
         | some r1 =>
           match r1 with
           | '.' :: r2 =>
             match wsToLineEnd r2 with
             | some j => some (alt.length + 1 + j, r2.take j)
             | none => none
           | _ => none
         | none => none)
      with
      | some a => some a
      | none => go rest

/-- Largest whitespace prefix length j of the handle rule whose following
character is a newline, a dot, or absent: the greedy backtracking of the
whitespace-star before the lookahead. -/
def lookJ (l : Str) : Option Nat :=
  go (l.takeWhile isWs).length
where
  cond (j : Nat) : Bool :=
    match (l.drop j).head? with
    | none => true
    | some c => c = '\n' || c = '.'
  go : Nat → Option Nat
    | 0 => if cond 0 then some 0 else none
    | j + 1 => if cond (j + 1) then some (j + 1) else go j

/-- Platform alternatives of the handle rule, tried in source order; the
last alternative is the two-word form on-whitespace-x. -/
def tryPlat (r : Str) : Option Nat :=
  match litCI "telegram".toList r with
  | some _ => some 8
  | none =>
    match litCI "twitter".toList r with
    | some _ => some 7
    | none =>
      match litCI "x".toList r with
      | some _ => some 1
      | none =>
        match litCI "on".toList r with
        | some r1 =>
          match ws1 r1 with
          | some r2 =>
            match litCI "x".toList r2 with
            | some _ => some (2 + (r1.length - r2.length) + 1)
            | none => none
          | none => none
        | none => none

/-- Matcher of the social-handle rule (case-insensitive): at-sign, a word
run, optional whitespace and platform word, optional whitespace, with a
lookahead requiring a newline, end of string, or a dot; deleted.  The
platform word can only start once the whitespace run before it is fully
consumed, and the present-branch of the optional group is tried first, as
the JS engine does. -/
def mHandle (l : Str) : Option (Nat × Str) :=
  match l with
  | '@' :: r1 =>
    let h := r1.takeWhile fun c => c.isAlphanum || c = '_'
    if h.isEmpty then none
    else
      let r2 := r1.drop h.length
      let wsr := r2.takeWhile isWs
      let withPlat : Option Nat :=
        match tryPlat (r2.drop wsr.length) with
        | some platLen =>
          match lookJ (r2.drop (wsr.length + platLen)) with
          | some j => some (wsr.length + platLen + j)
          | none => none
        | none => none
      let extra : Option Nat :=
        match withPlat with
        | some e => some e
        | none => lookJ r2
      match extra with
      | some e => some (1 + h.length + e, ([] : Str))
      | none => none
  | _ => none

/-- Matcher of the empty-parentheses rule: opening parenthesis, whitespace,
closing parenthesis; deleted. -/
def mEmptyParen (l : Str) : Option (Nat × Str) :=
  match l with
  | '(' :: r1 =>
    let ws := r1.takeWhile isWs
    match (r1.drop ws.length).head? with
    | some ')' => some (2 + ws.length, ([] : Str))
    | _ => none
  | _ => none

/-- Matcher of the empty-brackets rule: opening bracket, whitespace,
closing bracket; deleted. -/
def mEmptyBracket (l : Str) : Option (Nat × Str) :=
  match l with
  | '[' :: r1 =>
    let ws := r1.takeWhile isWs
    match (r1.drop ws.length).head? with
    | some ']' => some (2 + ws.length, ([] : Str))
    | _ => none
  | _ => none

/-- Matcher of the dangling-colon rule (multiline): a colon followed by
whitespace up to a line end; deleted. -/
def mTrailColon (l : Str) : Option (Nat × Str) :=
  match l with
  | ':' :: r1 =>
    match wsToLineEnd r1 with
    | some j => some (1 + j, ([] : Str))
    | none => none
  | _ => none

/-- Matcher of the numbered-stub-line rule (multiline): at line start,
digits, a dot, then whitespace up to a line end; deleted. -/
def mNumLine (prev : Option Char) (l : Str) : Option (Nat × Str) :=
  if !atLS prev then none
  else
    let ds := l.takeWhile Char.isDigit
    if ds.isEmpty then none
    else
      match l.drop ds.length with
      | '.' :: r2 =>
        match wsToLineEnd r2 with
        | some j => some (ds.length + 1 + j, ([] : Str))
        | none => none
      | _ => none

/-- The three-character mojibake bullet as committed in the source file. -/
def bullet3 : Str := ['â', '€', '¢']

/-- Matcher of the bullet-stub-line rule (multiline): at line start, the
bullet glyph, then whitespace up to a line end; deleted. -/
def mBulletLine (prev : Option Char) (l : Str) : Option (Nat × Str) :=
  if !atLS prev then none
  else
    match litEx bullet3 l with
    | some r1 =>
      match wsToLineEnd r1 with
      | some j => some (3 + j, ([] : Str))
      | none => none
    | none => none

/-- Matcher of the leading-newlines rule (anchored at the string start,
no multiline flag): a newline run at the very beginning; deleted. -/
def mLeadNl (prev : Option Char) (l : Str) : Option (Nat × Str) :=
  match prev with
  | some _ => none
  | none =>
    let run := l.takeWhile fun c => c = '\n'
    if run.isEmpty then none else some (run.length, ([] : Str))

/-- Matcher of the trailing-newlines rule (anchored at the string end): a
newline run reaching the end of the string; deleted. -/
def mTrailNl (l : Str) : Option (Nat × Str) :=
  let run := l.takeWhile fun c => c = '\n'
  if run.isEmpty then none
  else if (l.drop run.length).isEmpty then some (run.length, ([] : Str))
  else none

/-- Function stripAllUrls of verifiedLinks.js: the fourteen replaces of the
source applied as successive global passes in source order, then a final
trim. -/
def stripAllUrls (text : Str) : Str :=
  let t1 := runRepl (fun _ l => mUrl l) text
  let t2 := runRepl (fun _ l => mWww l) t1
  let t3 := runRepl (fun _ l => mDomain2 l) t2
  let t4 := runRepl (fun _ l => mDomain1 l) t3
  let t5 := runRepl mOrphan t4
  let t6 := runRepl (fun _ l => mHandle l) t5
  let t7 := runRepl (fun _ l => mEmptyParen l) t6
  let t8 := runRepl (fun _ l => mEmptyBracket l) t7
  let t9 := runRepl (fun _ l => mTrailColon l) t8
  let t10 := collapseST2 t9
  let t11 := runRepl mNumLine t10
  let t12 := runRepl mBulletLine t11
  let t13 := runRepl mLeadNl t12
  let t14 := runRepl (fun _ l => mTrailNl l) t13
  trimStr t14

/-- The VERIFIED_LINKS registry, in source order. -/
def VERIFIED_LINKS : List (String × String) :=
  [("website", "https://www.peppercoin.com"),
   ("governance", "https://www.peppercoin.com/pepper-inc"),
   ("pepperInc", "https://www.peppercoin.com/pepper-inc"),
   ("staking", "https://www.peppercoin.com/pepper-inc"),
   ("twitter", "https://x.com/PepperChain"),
   ("x", "https://x.com/PepperChain"),
   ("telegram", "https://t.me/officialpeppercoin"),
   ("tg", "https://t.me/officialpeppercoin"),
   ("coingecko", "https://www.coingecko.com/en/coins/pepper"),
   ("cg", "https://www.coingecko.com/en/coins/pepper"),
   ("fanx", "https://app.fanx.xyz"),
   ("dex", "https://app.fanx.xyz"),
   ("chiliz", "https://www.chiliz.com"),
   ("explorer", "https://chiliscan.com"),
   ("chiliscan", "https://chiliscan.com")]

/-- The LINK_TRIGGERS table, keys and trigger lists in source order. -/
def LINK_TRIGGERS : List (String × List String) :=
  [("website", ["website", "site", "homepage", "main page", "official site", "home", "all links", "all the links", "links"]),
   ("twitter", ["twitter", "x.com", "tweet", "x account", "social", "all links", "all the links", "links"]),
   ("telegram", ["telegram", "tg", "chat", "group", "community chat", "all links", "all the links", "links"]),
   ("coingecko", ["coingecko", "cg", "coin gecko", "price", "chart", "market cap", "all links", "all the links", "links"]),
   ("governance", ["governance", "pepper inc", "pepperinc", "vote", "voting", "stake", "staking", "dao", "all links", "all the links", "links"]),
   ("fanx", ["fanx", "dex", "swap", "trade", "buy", "exchange", "buy pepper", "all links", "all the links", "links"]),
   ("explorer", ["explorer", "chiliscan", "scan", "contract", "verify", "block", "all links", "all the links", "links"]),
   ("chiliz", ["chiliz chain", "chiliz", "chz", "network"])]

/-- Function getLinkLabel of verifiedLinks.js. -/
def getLinkLabel (key : String) : String :=
  match key with
  | "website" => "Official Website"
  | "twitter" => "Twitter/X"
  | "telegram" => "Telegram"
  | "coingecko" => "CoinGecko"
  | "governance" => "Pepper Inc (Governance)"
  | "fanx" => "FanX DEX"
  | "explorer" => "Chiliscan Explorer"
  | "chiliz" => "Chiliz Chain"
  | k => k

/-- A detected relevant link: key, url and display label. -/
structure LinkRec where
  key : String
  url : String
  label : String
deriving DecidableEq

/-- Function detectRelevantLinks of verifiedLinks.js: walk the trigger table
in order; the first trigger of a key contained in the lower-cased query
selects that key's link, deduplicated by url, preserving table order. -/
def detectRelevantLinks (query : Str) : List LinkRec :=
  let lower := lowerStr query
  (LINK_TRIGGERS.foldl
    (fun (acc : List LinkRec × List String) kt =>
      match kt.2.find? (fun trig => containsSub lower trig.toList) with
      | some _ =>
        match VERIFIED_LINKS.lookup kt.1 with
        | some url =>
          if acc.2.contains url then acc
          else (acc.1 ++ [⟨kt.1, url, getLinkLabel kt.1⟩], acc.2 ++ [url])
        | none => acc
      | none => acc)
    ([], [])).1

/-- Function appendVerifiedLinks of verifiedLinks.js: with no links the text
is returned untouched; otherwise the trimmed text, a blank line, and one
label-colon-url line per link, trimmed at the end. -/
def appendVerifiedLinks (text : Str) (links : List LinkRec) : Str :=
  if links.isEmpty then text
  else
    trimStr
      (trimStr text ++ '\n' :: '\n' ::
        links.flatMap fun lk =>
          lk.label.toList ++ ':' :: ' ' :: lk.url.toList ++ ['\n'])

end VerifiedLinks

namespace Formatter

/-- Function format of the formatter: strip markdown, strip every URL, clean
whitespace, detect the verified links relevant to the original query, append
them when present, and trim. -/
def format (text : Str) (query : Str) : Str :=
  let f1 := stripMarkdown text
  let f2 := VerifiedLinks.stripAllUrls f1
  let f3 := cleanWhitespace f2
  let relevantLinks := VerifiedLinks.detectRelevantLinks query
  let f4 :=
    if relevantLinks.length > 0 then VerifiedLinks.appendVerifiedLinks f3 relevantLinks
    else f3
  trimStr f4

end Formatter

namespace Pipeline

/-- The fixed fallback message substituted by process when validation
fails. -/
def validationFallback : Str :=
  "I apologize, but I had trouble with that response. Could you rephrase your question?".toList

/-- Stages 4 and 5 of Pipeline.process, from a generated response to the
delivered message text: validate, fall back on invalid output, and skip the
formatter for template responses (their URLs are pre-verified); generative
output goes through the formatter against the original message text. -/
def processTail (generated : Validator.GeneratedResponse) (charBudget : Nat)
    (messageText : Str) : Str :=
  let validated := Validator.validate generated charBudget
  if !validated.valid then validationFallback
  else if generated.fromTemplate then validated.text
  else Formatter.format validated.text messageText

/-- A full generate-strategy pipeline run from the generation stage on:
stage 3 writes to the cache inside the generator, stages 4 and 5 produce
the delivered text.  Returns the delivered message and the cache store
after the run. -/
def processGenRun (messageText : Str) (charBudget : Nat) (knowledgeOK : Bool)
    (outcome : Generator.AIOutcome) (cache : ResponseCache.Cache) (now : Nat) :
    Str × ResponseCache.Cache :=
  let (generated, cache') :=
    Generator.generateGenStrategy messageText knowledgeOK outcome cache now
  (processTail generated charBudget messageText, cache')

end Pipeline

namespace RateLimit

/-- Per-user record of the rate-limit store: message count in the current
window and the time at which the window resets. -/
structure RLRecord where
  count : Nat
  resetTime : Nat
deriving DecidableEq

/-- The rateLimitStore Map keyed by user id. -/
abbrev RLStore := List (Nat × RLRecord)

/-- Observable outcome of one middleware invocation: the message proceeds
down the chain, a single cooldown reply stating the remaining seconds is
sent, or the message is silently dropped. -/
inductive RLOutcome where
  | proceed
  | cooldown (secondsRemaining : Nat)
  | silent
deriving DecidableEq

/-- One invocation of the rateLimit middleware for a user at a time:
a missing or expired record resets the counter to one and proceeds; an
in-window record is incremented, and beyond the maximum exactly the first
overage (count equal to maximum plus one) replies with the cooldown notice
while later overages are silent.  A zero user id models the falsy JS id that
bypasses the limiter. -/
def rateLimitStep (store : RLStore) (userId now windowMs maxMessages : Nat) :
    RLOutcome × RLStore :=
  if userId = 0 then (.proceed, store)
  else
    match mapGet store userId with
    | some userData =>
      if userData.resetTime < now then
        (.proceed, mapSet store userId ⟨1, now + windowMs⟩)
      else
        let count' := userData.count + 1
        let store' := mapSet store userId ⟨count', userData.resetTime⟩
        if maxMessages < count' then
          if count' = maxMessages + 1 then
            (.cooldown ((userData.resetTime - now + 999) / 1000), store')
          else (.silent, store')
        else (.proceed, store')
    | none => (.proceed, mapSet store userId ⟨1, now + windowMs⟩)

/-- Fold of the middleware over a list of message timestamps, collecting the
outcome of every message together with the final store. -/
def runRL (store : RLStore) (userId windowMs maxMessages : Nat) :
    List Nat → List RLOutcome × RLStore
  | [] => ([], store)
  | t :: ts =>
    let s := rateLimitStep store userId t windowMs maxMessages
    let rest := runRL s.2 userId windowMs maxMessages ts
    (s.1 :: rest.1, rest.2)

end RateLimit

/-- A generated text that the validator rejects for forbidden content, used
to exhibit the caching behaviour of the generate strategy. -/
def badAiText : Str := "As an AI I cannot help with that request.".toList

namespace ResponseCache

/-- One recorded call to set, for reasoning about arbitrary sequences of
cache insertions. -/
structure SetOp where
  query : Str
  response : Str
  ttl : Nat
  now : Nat

/-- Fold a sequence of set calls over a store. -/
def applySets (c : Cache) (ops : List SetOp) : Cache :=
  ops.foldl (fun acc op => set acc op.query op.response op.ttl op.now) c

end ResponseCache

namespace RateLimit

/-- Expected outcome list of a run of in-window messages starting from a
given in-window count: each message increments the count, the first count
beyond the maximum answers with the cooldown notice, later ones are
silent. -/
def outsFrom (maxM R : Nat) : Nat → List Nat → List RLOutcome
  | _, [] => []
  | cnt, t :: ts =>
    (if maxM < cnt + 1 then
      (if cnt + 1 = maxM + 1 then .cooldown ((R - t + 999) / 1000) else .silent)
     else .proceed) :: outsFrom maxM R (cnt + 1) ts

end RateLimit

/-- Witness text for the validator-ordering claim: an over-limit response
whose compression keeps the forbidden self-reference (it sits in the first
sentence, which compression always preserves). -/
def c8text : Str := "As an AI I wrote this. ".toList ++ List.replicate 3600 'x'

/-- Adjacency relation of collapsed strings: no two neighbouring whitespace
characters. -/
def NoWsPair (a b : Char) : Prop := ¬(isWs a = true ∧ isWs b = true)

/-- Character class of the idempotence domain: lowercase ASCII letters and
the space. -/
def azSp (c : Char) : Bool :=
  (97 ≤ c.toNat && c.toNat ≤ 122) || c.toNat = 32

/-- No two adjacent spaces. -/
def noTwoSp : Str → Bool
  | a :: b :: r => !(a = ' ' && b = ' ') && noTwoSp (b :: r)
  | _ => true

/-- Plain-text predicate: lowercase words separated by single spaces, no
edge spaces. -/
def plainTx (t : Str) : Bool :=
  t.all azSp && noTwoSp t && !(t.head? == some ' ') && !(t.getLast? == some ' ')


/-- Claim C1, counterexample: in a generate-strategy pipeline run whose
remote model returns a text matching a forbidden output pattern, the
validator rejects the text with the forbidden-content error and the caller
receives the fallback — yet the rejected text has already been written to
the response cache by the generator (the generator's guard only skips texts
containing the substring error), refuting the never-cached part of the
claim. -/
theorem c1_counterexample :
    (Validator.validate ⟨badAiText, 42, false, false, 0⟩ 1000).valid = false ∧
    (Validator.validate ⟨badAiText, 42, false, false, 0⟩ 1000).error =
      some "Contains forbidden content".toList ∧
    (Pipeline.processGenRun "tell me about pepper".toList 1000 true
        (.ok badAiText 42) [] 5000).1 = Pipeline.validationFallback ∧
    mapGet (Pipeline.processGenRun "tell me about pepper".toList 1000 true
        (.ok badAiText 42) [] 5000).2
      (ResponseCache.normalizeKey "tell me about pepper".toList) =
      some ⟨badAiText, 5000, ResponseCache.CACHE_TTL_FACTS, 0⟩ := by
  refine ⟨by decide, by decide, by decide, by decide⟩

/-- Claim C1, amended: a generated text that fails validation is never
delivered — the pipeline returns the fixed fallback message — but the text
may already sit in the response cache, because the generator writes any
non-empty AI text not containing the substring error before validation
runs; the cache after the run is exactly characterized by that guard. -/
theorem c1_amended (msg : Str) (budget : Nat) (knowledgeOK : Bool)
    (outcome : Generator.AIOutcome) (cache : ResponseCache.Cache) (now : Nat)
    (h : (Validator.validate (Generator.generateFromAI knowledgeOK outcome) budget).valid
      = false) :
    (Pipeline.processGenRun msg budget knowledgeOK outcome cache now).1 =
      Pipeline.validationFallback ∧
    (Pipeline.processGenRun msg budget knowledgeOK outcome cache now).2 =
      (if !(Generator.generateFromAI knowledgeOK outcome).text.isEmpty &&
          !(containsSub (Generator.generateFromAI knowledgeOK outcome).text "error".toList)
       then ResponseCache.set cache msg (Generator.generateFromAI knowledgeOK outcome).text
         ResponseCache.CACHE_TTL_FACTS now
       else cache) := by
  unfold Pipeline.processGenRun Pipeline.processTail Generator.generateGenStrategy
  simp [h]

/-- Witness for the amended claim C1 at the concrete counterexample run. -/
theorem c1_amended_witness :
    (Pipeline.processGenRun "tell me about pepper".toList 1000 true
        (.ok badAiText 42) [] 5000).1 = Pipeline.validationFallback :=
  (c1_amended "tell me about pepper".toList 1000 true (.ok badAiText 42) [] 5000
    (by decide)).1

/-- Claim C2: when the remote call fails (non-success result) or throws, the
generator returns the fixed apologetic text with zero tokens and does not
raise — but, contrary to the claim, a response-cache write does occur for
that run: the apology is non-empty and does not contain the substring
error, so the generator's guard stores it under the query key. -/
theorem c2_cache_write_on_failed_run :
    (Generator.generateGenStrategy "what is pepper staking".toList true .failed [] 1000).1 =
      ⟨Generator.apologyText, 0, false, false, 0⟩ ∧
    (Generator.generateGenStrategy "what is pepper staking".toList true .failed [] 1000).2 =
      [(ResponseCache.normalizeKey "what is pepper staking".toList,
        ⟨Generator.apologyText, 1000, ResponseCache.CACHE_TTL_FACTS, 0⟩)] ∧
    (Generator.generateGenStrategy "what is pepper staking".toList true .thrown [] 1000).2 ≠
      ([] : ResponseCache.Cache) := by
  refine ⟨by decide, by decide, by decide⟩

/-- Claim C3, counterexample: for one user and conversation, asking
What is PEPPER? and then what is pepper one second later is NOT suppressed:
the duplicate-guard normalization keeps punctuation, the trailing question
mark survives, the two hashes differ, and the second call returns false
where the claim requires true. -/
theorem c3_counterexample :
    ((DupGuard.isDuplicate [] 7 9 "What is PEPPER?".toList 0).1 = false) ∧
    ((DupGuard.isDuplicate
        (DupGuard.isDuplicate [] 7 9 "What is PEPPER?".toList 0).2
        7 9 "what is pepper".toList 1000).1 = false) ∧
    DupGuard.simpleHash "what is pepper".toList ≠
      DupGuard.simpleHash "What is PEPPER?".toList := by
  refine ⟨by decide, by decide, by decide⟩

/-- Claim C3, amended: within the window the repeat is suppressed exactly
when the texts agree after the hash normalization (lower-case, trim,
whitespace collapse), which keeps punctuation: the case-variant repeat
what is pepper? of What is PEPPER? returns true, while the variant without
the question mark hashes differently and returns false. -/
theorem c3_amended :
    ((DupGuard.isDuplicate
        (DupGuard.isDuplicate [] 7 9 "What is PEPPER?".toList 0).2
        7 9 "what is pepper?".toList 1000).1 = true) ∧
    ((DupGuard.isDuplicate
        (DupGuard.isDuplicate [] 7 9 "What is PEPPER?".toList 0).2
        7 9 "what is pepper".toList 1000).1 = false) ∧
    DupGuard.simpleHash "what is pepper?".toList =
      DupGuard.simpleHash "What is PEPPER?".toList := by
  refine ⟨by decide, by decide, by decide⟩

/-- Claim C9, counterexample: the cache-key normalization is not idempotent.
On the input a-space-bang, stripping the bang exposes a trailing space that
was out of reach of the earlier trim, so a second application shortens the
key again. -/
theorem c9_counterexample :
    ResponseCache.normalizeKey (ResponseCache.normalizeKey "a !".toList) ≠
      ResponseCache.normalizeKey "a !".toList := by
  decide

/-- Claim C10: a pipeline run whose generator result is a template response
skips the formatter entirely — the delivered message is the validator's
output text, URLs included, unchanged. -/
theorem c10_template_bypasses_formatter (gen : Validator.GeneratedResponse)
    (budget : Nat) (msg : Str) (ht : gen.fromTemplate = true)
    (hv : (Validator.validate gen budget).valid = true) :
    Pipeline.processTail gen budget msg = (Validator.validate gen budget).text := by
  unfold Pipeline.processTail
  simp [hv, ht]

/-- Witness for claim C10: a concrete template response carrying a verified
URL is delivered verbatim, its URL intact. -/
theorem c10_witness :
    Pipeline.processTail
      ⟨"Check https://www.peppercoin.com now.".toList, 0, false, true, 0⟩ 200
      "hello".toList =
      "Check https://www.peppercoin.com now.".toList ∧
    containsSub
      (Pipeline.processTail
        ⟨"Check https://www.peppercoin.com now.".toList, 0, false, true, 0⟩ 200
        "hello".toList)
      "https://".toList = true := by
  have h := c10_template_bypasses_formatter
    ⟨"Check https://www.peppercoin.com now.".toList, 0, false, true, 0⟩ 200
    "hello".toList rfl (by decide)
  refine ⟨by rw [h]; decide, by rw [h]; decide⟩

theorem mapGet_nil {α β : Type} [DecidableEq α] (k : α) :
    mapGet ([] : List (α × β)) k = none := rfl

theorem mapGet_cons {α β : Type} [DecidableEq α] (k' : α) (v' : β) (rest : List (α × β))
    (k : α) :
    mapGet ((k', v') :: rest) k = if k' = k then some v' else mapGet rest k := by
  simp only [mapGet, List.lookup]
  by_cases h : k' = k
  · subst h
    simp
  · rw [beq_eq_false_iff_ne.mpr (Ne.symm h), if_neg h]

theorem mapGet_mapSet_self {α β : Type} [DecidableEq α] (m : List (α × β)) (k : α) (v : β) :
    mapGet (mapSet m k v) k = some v := by
  induction m with
  | nil => simp [mapSet, mapGet_cons]
  | cons p rest ih =>
    obtain ⟨k', v'⟩ := p
    by_cases h : k' = k
    · simp [mapSet, h, mapGet_cons]
    · simp [mapSet, h, mapGet_cons, ih]

theorem mapGet_eq_none_of_not_mem {α β : Type} [DecidableEq α] (m : List (α × β)) (k : α)
    (h : k ∉ m.map Prod.fst) : mapGet m k = none := by
  induction m with
  | nil => rfl
  | cons p rest ih =>
    simp only [List.map_cons, List.mem_cons] at h
    push_neg at h
    rw [mapGet_cons]
    simp [Ne.symm h.1, ih h.2]

theorem mapGet_mapDelete_self {α β : Type} [DecidableEq α] (m : List (α × β)) (k : α)
    (hnd : (m.map Prod.fst).Nodup) : mapGet (mapDelete m k) k = none := by
  induction m with
  | nil => rfl
  | cons p rest ih =>
    obtain ⟨k', v'⟩ := p
    simp only [List.map_cons, List.nodup_cons] at hnd
    by_cases h : k' = k
    · subst h
      simp only [mapDelete, if_pos rfl]
      exact mapGet_eq_none_of_not_mem rest k' hnd.1
    · simp only [mapDelete, if_neg h]
      rw [mapGet_cons]
      simp [h, ih hnd.2]

theorem mapGet_isSome_of_mem {α β : Type} [DecidableEq α] (m : List (α × β)) (k : α)
    (h : k ∈ m.map Prod.fst) : (mapGet m k).isSome := by
  induction m with
  | nil => simp at h
  | cons p rest ih =>
    rw [mapGet_cons]
    by_cases hk : p.1 = k
    · simp [hk]
    · simp only [List.map_cons, List.mem_cons] at h
      rcases h with h | h
    
      · exact absurd h.symm hk
      · simp [hk, ih h]

theorem length_mapDelete_of_isSome {α β : Type} [DecidableEq α] (m : List (α × β)) (k : α)
    (h : (mapGet m k).isSome) : (mapDelete m k).length = m.length - 1 := by
  induction m with
  | nil => simp [mapGet] at h
  | cons p rest ih =>
    obtain ⟨k', v'⟩ := p
    by_cases hk : k' = k
    · simp [mapDelete, hk]
    · rw [mapGet_cons] at h
      simp only [if_neg hk] at h
      have hne : rest ≠ [] := by
        intro he
        subst he
        simp [mapGet] at h
      have hlen : 1 ≤ rest.length := by
        cases rest with
        | nil => exact absurd rfl hne
        | cons a t => simp
      simp only [mapDelete, if_neg hk, List.length_cons, ih h]
      omega

theorem length_mapSet_le {α β : Type} [DecidableEq α] (m : List (α × β)) (k : α) (v : β) :
    (mapSet m k v).length ≤ m.length + 1 := by
  induction m with
  | nil => simp [mapSet]
  | cons p rest ih =>
    obtain ⟨k', v'⟩ := p
    by_cases h : k' = k
    · simp [mapSet, h]
    · simp only [mapSet, if_neg h, List.length_cons]
      omega

theorem mem_keys_mapSet {α β : Type} [DecidableEq α] (m : List (α × β)) (k : α) (v : β)
    (a : α) (h : a ∈ (mapSet m k v).map Prod.fst) : a = k ∨ a ∈ m.map Prod.fst := by
  induction m with
  | nil => simp [mapSet] at h; simp [h]
  | cons p rest ih =>
    obtain ⟨k', v'⟩ := p
    by_cases hk : k' = k
    · simp only [mapSet, if_pos hk] at h
      simp only [List.map_cons, List.mem_cons] at h ⊢
      tauto
    · simp only [mapSet, if_neg hk] at h
      simp only [List.map_cons, List.mem_cons] at h ⊢
      rcases h with h | h
      · tauto
      · rcases ih h with h | h <;> tauto

theorem nodup_keys_mapSet {α β : Type} [DecidableEq α] (m : List (α × β)) (k : α) (v : β)
    (hnd : (m.map Prod.fst).Nodup) : ((mapSet m k v).map Prod.fst).Nodup := by
  induction m with
  | nil => simp [mapSet]
  | cons p rest ih =>
    obtain ⟨k', v'⟩ := p
    simp only [List.map_cons, List.nodup_cons] at hnd
    by_cases hk : k' = k
    · subst hk
      simp only [mapSet, if_true, eq_self_iff_true]
      simp only [List.map_cons, List.nodup_cons]
      exact hnd
    · simp only [mapSet, if_neg hk, List.map_cons, List.nodup_cons]
      refine ⟨fun hmem => ?_, ih hnd.2⟩
      rcases mem_keys_mapSet rest k v k' hmem with h | h
      · exact hk h
      · exact hnd.1 h

theorem mapDelete_sublist {α β : Type} [DecidableEq α] (m : List (α × β)) (k : α) :
    List.Sublist (mapDelete m k) m := by
  induction m with
  | nil => simp [mapDelete]
  | cons p rest ih =>
    obtain ⟨k', v'⟩ := p
    by_cases h : k' = k
    · simp only [mapDelete, if_pos h]
      exact (List.sublist_cons_self _ _)
    · simp only [mapDelete, if_neg h]
      exact ih.cons₂ _

theorem nodup_keys_mapDelete {α β : Type} [DecidableEq α] (m : List (α × β)) (k : α)
    (hnd : (m.map Prod.fst).Nodup) : ((mapDelete m k).map Prod.fst).Nodup :=
  ((mapDelete_sublist m k).map Prod.fst).nodup hnd

namespace ResponseCache

theorem nodup_keys_evictOldest (c : Cache) (hnd : (c.map Prod.fst).Nodup) :
    ((evictOldest c).map Prod.fst).Nodup := by
  unfold evictOldest
  cases findOldest c with
  | none => exact hnd
  | some k => exact nodup_keys_mapDelete c k hnd

theorem nodup_keys_set (c : Cache) (q r : Str) (ttl t : Nat)
    (hnd : (c.map Prod.fst).Nodup) : ((set c q r ttl t).map Prod.fst).Nodup := by
  unfold set
  by_cases h : MAX_CACHE_SIZE ≤ c.length
  · simp only [if_pos h]
    exact nodup_keys_mapSet _ _ _ (nodup_keys_evictOldest c hnd)
  · simp only [if_neg h]
    exact nodup_keys_mapSet _ _ _ hnd

theorem mapGet_set_self (c : Cache) (q r : Str) (ttl t : Nat) :
    mapGet (set c q r ttl t) (normalizeKey q) = some ⟨r, t, ttl, 0⟩ := by
  unfold set
  exact mapGet_mapSet_self _ _ _

end ResponseCache

/-- Claim C7: directly after set(q, r), a get of any query q-prime with the
same normalized key is a hit returning r, as long as the elapsed time does
not exceed the ttl; once it does, the get is a miss, the entry is deleted,
and the stats size drops by one.  The store is assumed to carry unique keys,
which every reachable store does. -/
theorem c7_cache_get_after_set (c : ResponseCache.Cache) (q q' r : Str) (ttl t now : Nat)
    (hq : ResponseCache.normalizeKey q' = ResponseCache.normalizeKey q)
    (hnd : (c.map Prod.fst).Nodup) :
    (now - t ≤ ttl →
      (ResponseCache.get (ResponseCache.set c q r ttl t) q' now).1 = (true, some r)) ∧
    (ttl < now - t →
      (ResponseCache.get (ResponseCache.set c q r ttl t) q' now).1 = (false, none) ∧
      mapGet (ResponseCache.get (ResponseCache.set c q r ttl t) q' now).2
        (ResponseCache.normalizeKey q) = none ∧
      (ResponseCache.getStats
          (ResponseCache.get (ResponseCache.set c q r ttl t) q' now).2 now).1 =
        (ResponseCache.set c q r ttl t).length - 1) := by
  have hget := ResponseCache.mapGet_set_self c q r ttl t
  have hndset := ResponseCache.nodup_keys_set c q r ttl t hnd
  constructor
  · intro hfresh
    have hrun : ResponseCache.get (ResponseCache.set c q r ttl t) q' now =
        ((true, some r),
          mapSet (ResponseCache.set c q r ttl t) (ResponseCache.normalizeKey q)
            ⟨r, t, ttl, 1⟩) := by
      simp only [ResponseCache.get, hq, hget]
      rw [if_neg (by omega)]
    rw [hrun]
  · intro hexp
    have hrun : ResponseCache.get (ResponseCache.set c q r ttl t) q' now =
        ((false, none),
          mapDelete (ResponseCache.set c q r ttl t) (ResponseCache.normalizeKey q)) := by
      simp only [ResponseCache.get, hq, hget]
      rw [if_pos (by omega)]
    rw [hrun]
    refine ⟨rfl, ?_, ?_⟩
    · exact mapGet_mapDelete_self _ _ hndset
    · simp only [ResponseCache.getStats]
      exact length_mapDelete_of_isSome _ _ (by simp [hget])

/-- Witness for claim C7 at a concrete store: both the fresh hit (including
across punctuation differences in the query) and the expired miss. -/
theorem c7_witness :
    (ResponseCache.get
        (ResponseCache.set [] "What is PEPPER?".toList "info".toList 100 0)
        "what is pepper".toList 50).1 = (true, some "info".toList) ∧
    (ResponseCache.get
        (ResponseCache.set [] "What is PEPPER?".toList "info".toList 100 0)
        "what is pepper".toList 200).1 = (false, none) := by
  have h := c7_cache_get_after_set [] "What is PEPPER?".toList "what is pepper".toList
    "info".toList 100 0 50 (by decide) (by decide)
  have h2 := c7_cache_get_after_set [] "What is PEPPER?".toList "what is pepper".toList
    "info".toList 100 0 200 (by decide) (by decide)
  exact ⟨h.1 (by decide), (h2.2 (by decide)).1⟩

namespace ResponseCache

/-- Loop invariant of evictOldest: starting from a seen key and minimal
timestamp, the fold returns a key of minimal timestamp, no later than the
accumulator, coming from the accumulator or from the remaining entries. -/
theorem findOldest_go_spec (rest : Cache) :
    ∀ (k0 : Str) (t0 : Nat),
    ∃ k t,
      rest.foldl
        (fun acc p =>
          if (match acc.2 with | none => true | some t1 => p.2.timestamp < t1) then
            (some p.1, some p.2.timestamp)
          else acc)
        ((some k0 : Option Str), (some t0 : Option Nat)) = (some k, some t) ∧
      t ≤ t0 ∧ (∀ p ∈ rest, t ≤ p.2.timestamp) ∧
      ((k, t) = (k0, t0) ∨ ∃ e : CacheEntry, (k, e) ∈ rest ∧ e.timestamp = t) := by
  induction rest with
  | nil =>
    intro k0 t0
    exact ⟨k0, t0, rfl, le_refl _, by simp, Or.inl rfl⟩
  | cons p rest ih =>
    intro k0 t0
    by_cases h : p.2.timestamp < t0
    · obtain ⟨k, t, heq, hle, hall, horig⟩ := ih p.1 p.2.timestamp
      refine ⟨k, t, ?_, by omega, ?_, ?_⟩
      · simpa [h] using heq
      · intro q hq
        rcases List.mem_cons.mp hq with hq | hq
        · subst hq; omega
        · exact hall q hq
      · rcases horig with horig | horig
        · refine Or.inr ⟨p.2, ?_, ?_⟩
          · have hk : k = p.1 := congrArg Prod.fst horig
            subst hk
            exact List.mem_cons_self _ _
          · have ht : t = p.2.timestamp := congrArg Prod.snd horig
            exact ht.symm
        · obtain ⟨e, he, hts⟩ := horig
          exact Or.inr ⟨e, List.mem_cons_of_mem _ he, hts⟩
    · obtain ⟨k, t, heq, hle, hall, horig⟩ := ih k0 t0
      refine ⟨k, t, ?_, hle, ?_, ?_⟩
      · simpa [h] using heq
      · intro q hq
        rcases List.mem_cons.mp hq with hq | hq
        · subst hq; omega
        · exact hall q hq
      · rcases horig with horig | horig
        · exact Or.inl horig
        · obtain ⟨e, he, hts⟩ := horig
          exact Or.inr ⟨e, List.mem_cons_of_mem _ he, hts⟩

/-- Function findOldest returns a key of an entry whose timestamp is minimal
among the whole store. -/
theorem findOldest_spec (c : Cache) (hne : c ≠ []) :
    ∃ k e, (k, e) ∈ c ∧ findOldest c = some k ∧
      ∀ p ∈ c, e.timestamp ≤ p.2.timestamp := by
  match c, hne with
  | p :: rest, _ =>
    obtain ⟨k, t, heq, hle, hall, horig⟩ := findOldest_go_spec rest p.1 p.2.timestamp
    have hfold : findOldest (p :: rest) = some k := by
      simp only [findOldest, List.foldl_cons, if_true]
      rw [heq]
    rcases horig with horig | horig
    · have hk : k = p.1 := congrArg Prod.fst horig
      have ht : t = p.2.timestamp := congrArg Prod.snd horig
      refine ⟨k, p.2, ?_, hfold, ?_⟩
      · rw [hk]; exact List.mem_cons_self _ _
      · intro q hq
        rcases List.mem_cons.mp hq with hq | hq
        · subst hq; omega
        · have := hall q hq; omega
    · obtain ⟨e, he, hts⟩ := horig
      refine ⟨k, e, List.mem_cons_of_mem _ he, hfold, ?_⟩
      intro q hq
      rcases List.mem_cons.mp hq with hq | hq
      · subst hq; omega
      · have := hall q hq; omega

/-- Evicting from a non-empty store removes exactly one entry. -/
theorem length_evictOldest (c : Cache) (hne : c ≠ []) :
    (evictOldest c).length = c.length - 1 := by
  obtain ⟨k, e, hmem, hfind, _⟩ := findOldest_spec c hne
  unfold evictOldest
  rw [hfind]
  refine length_mapDelete_of_isSome c k (mapGet_isSome_of_mem c k ?_)
  exact List.mem_map_of_mem Prod.fst hmem

/-- One set call keeps a store within the capacity bound. -/
theorem length_set_le (c : Cache) (q r : Str) (ttl t : Nat)
    (h : c.length ≤ MAX_CACHE_SIZE) :
    (set c q r ttl t).length ≤ MAX_CACHE_SIZE := by
  unfold set
  by_cases hcap : MAX_CACHE_SIZE ≤ c.length
  · rw [if_pos hcap]
    have hne : c ≠ [] := by
      intro he
      subst he
      simp [MAX_CACHE_SIZE] at hcap
    have h1 := length_evictOldest c hne
    have h2 := length_mapSet_le (evictOldest c) (normalizeKey q)
      (⟨r, t, ttl, 0⟩ : CacheEntry)
    simp only [MAX_CACHE_SIZE] at *
    omega
  · rw [if_neg hcap]
    have h2 := length_mapSet_le c (normalizeKey q) (⟨r, t, ttl, 0⟩ : CacheEntry)
    simp only [MAX_CACHE_SIZE] at *
    omega

end ResponseCache

/-- Claim C6: starting from the empty store, no sequence of set calls ever
grows the response cache beyond MAX_CACHE_SIZE; and on a non-empty store
with unique keys (as every reachable store has), evictOldest removes exactly
one entry, carrying a timestamp that is minimal among all current entries. -/
theorem c6_cache_bound_and_oldest_eviction :
    (∀ ops : List ResponseCache.SetOp,
      (ResponseCache.applySets [] ops).length ≤ ResponseCache.MAX_CACHE_SIZE) ∧
    (∀ c : ResponseCache.Cache, c ≠ [] → (c.map Prod.fst).Nodup →
      ∃ k e, (k, e) ∈ c ∧ ResponseCache.evictOldest c = mapDelete c k ∧
        (ResponseCache.evictOldest c).length = c.length - 1 ∧
        ∀ p ∈ c, e.timestamp ≤ p.2.timestamp) := by
  constructor
  · have key : ∀ (ops : List ResponseCache.SetOp) (c : ResponseCache.Cache),
        c.length ≤ ResponseCache.MAX_CACHE_SIZE →
        (ResponseCache.applySets c ops).length ≤ ResponseCache.MAX_CACHE_SIZE := by
      intro ops
      induction ops with
      | nil => intro c h; exact h
      | cons op ops ih =>
        intro c h
        exact ih _ (ResponseCache.length_set_le c op.query op.response op.ttl op.now h)
    intro ops
    exact key ops [] (by simp [ResponseCache.MAX_CACHE_SIZE])
  · intro c hne hnd
    obtain ⟨k, e, hmem, hfind, hmin⟩ := ResponseCache.findOldest_spec c hne
    refine ⟨k, e, hmem, ?_, ResponseCache.length_evictOldest c hne, hmin⟩
    unfold ResponseCache.evictOldest
    rw [hfind]

/-- Witness for claim C6: a bounded fold over concrete operations and a
concrete eviction where the minimal-timestamp entry is singled out. -/
theorem c6_witness :
    (ResponseCache.applySets []
        [⟨"a".toList, "ra".toList, 10, 5⟩, ⟨"b".toList, "rb".toList, 10, 3⟩]).length ≤
      ResponseCache.MAX_CACHE_SIZE ∧
    ∃ k e, (k, e) ∈ ([(("a".toList : Str), (⟨"ra".toList, 5, 10, 0⟩ : ResponseCache.CacheEntry)),
        ("b".toList, ⟨"rb".toList, 3, 10, 0⟩)] : ResponseCache.Cache) ∧
      ResponseCache.evictOldest
          [("a".toList, ⟨"ra".toList, 5, 10, 0⟩), ("b".toList, ⟨"rb".toList, 3, 10, 0⟩)] =
        mapDelete
          [("a".toList, ⟨"ra".toList, 5, 10, 0⟩), ("b".toList, ⟨"rb".toList, 3, 10, 0⟩)] k ∧
      (ResponseCache.evictOldest
          [("a".toList, ⟨"ra".toList, 5, 10, 0⟩), ("b".toList, ⟨"rb".toList, 3, 10, 0⟩)]).length =
        ([("a".toList, ⟨"ra".toList, 5, 10, 0⟩),
          ("b".toList, ⟨"rb".toList, 3, 10, 0⟩)] : ResponseCache.Cache).length - 1 ∧
      ∀ p ∈ ([(("a".toList : Str), (⟨"ra".toList, 5, 10, 0⟩ : ResponseCache.CacheEntry)),
          ("b".toList, ⟨"rb".toList, 3, 10, 0⟩)] : ResponseCache.Cache),
        e.timestamp ≤ p.2.timestamp := by
  refine ⟨c6_cache_bound_and_oldest_eviction.1 _, ?_⟩
  exact c6_cache_bound_and_oldest_eviction.2 _ (by decide) (by decide)

namespace RateLimit

/-- One in-window middleware step from a single-user store: the count is
incremented and the outcome follows the overage ifs of the source. -/
theorem rateLimitStep_inwindow (u w maxM cnt R t : Nat) (hu : u ≠ 0) (ht : t ≤ R) :
    rateLimitStep [(u, ⟨cnt, R⟩)] u t w maxM =
      ((if maxM < cnt + 1 then
          (if cnt + 1 = maxM + 1 then .cooldown ((R - t + 999) / 1000) else .silent)
        else .proceed), [(u, ⟨cnt + 1, R⟩)]) := by
  unfold rateLimitStep
  rw [if_neg hu]
  have hget : mapGet [(u, (⟨cnt, R⟩ : RLRecord))] u = some ⟨cnt, R⟩ := by
    rw [mapGet_cons]
    simp
  rw [hget]
  simp only [mapSet, if_pos rfl]
  rw [if_neg (by omega : ¬R < t)]
  by_cases h1 : maxM < cnt + 1
  · by_cases h2 : cnt + 1 = maxM + 1
    · simp [h1, h2]
    · simp [h1, h2]
  · simp [h1]

/-- Closed form of a run of in-window messages from a single-user store. -/
theorem runRL_inwindow (u w maxM : Nat) (hu : u ≠ 0) :
    ∀ (ts : List Nat) (cnt R : Nat), (∀ t' ∈ ts, t' ≤ R) →
    runRL [(u, ⟨cnt, R⟩)] u w maxM ts =
      (outsFrom maxM R cnt ts, [(u, ⟨cnt + ts.length, R⟩)]) := by
  intro ts
  induction ts with
  | nil => intro cnt R _; simp [runRL, outsFrom]
  | cons t ts ih =>
    intro cnt R h
    have hstep := rateLimitStep_inwindow u w maxM cnt R t hu (h t (List.mem_cons_self _ _))
    have hrest := ih (cnt + 1) R (fun t' ht' => h t' (List.mem_cons_of_mem _ ht'))
    simp only [runRL, hstep, hrest, outsFrom]
    have harith : cnt + 1 + ts.length = cnt + (ts.length + 1) := by omega
    rw [harith]
    simp

/-- Indexed view of the expected outcome list. -/
theorem outsFrom_get? (maxM R : Nat) :
    ∀ (ts : List Nat) (cnt i : Nat), i < ts.length →
    (outsFrom maxM R cnt ts).get? i =
      some (if maxM < cnt + i + 1 then
        (if cnt + i + 1 = maxM + 1 then
          .cooldown ((R - ts.getD i 0 + 999) / 1000)
         else .silent)
       else .proceed) := by
  intro ts
  induction ts with
  | nil => intro cnt i h; simp at h
  | cons t ts ih =>
    intro cnt i h
    cases i with
    | zero => simp [outsFrom]
    | succ i =>
      have hi : i < ts.length := by simpa using h
      have := ih (cnt + 1) i hi
      simp only [outsFrom, List.get?_cons_succ, this, List.getD_cons_succ]
      have harith : cnt + 1 + i + 1 = cnt + (i + 1) + 1 := by omega
      rw [harith]

/-- Claim C5: from an empty store with maximum five, a first message at t1
followed by further messages inside the window (all at times at most
t1 plus the window): messages one to five proceed normally, the sixth
triggers exactly one cooldown reply, every later in-window message is
silently dropped, and the first message after the window expires proceeds
and resets the user's counter to one. -/
theorem c5_rate_limit_window (u w t1 : Nat) (hu : u ≠ 0) (ts : List Nat)
    (hin : ∀ t' ∈ ts, t' ≤ t1 + w) :
    (∀ i, i < 5 → i < ts.length + 1 →
      (RateLimit.runRL [] u w 5 (t1 :: ts)).1.get? i = some .proceed) ∧
    (5 ≤ ts.length → ∃ s,
      (RateLimit.runRL [] u w 5 (t1 :: ts)).1.get? 5 = some (.cooldown s)) ∧
    (∀ i, 5 < i → i < ts.length + 1 →
      (RateLimit.runRL [] u w 5 (t1 :: ts)).1.get? i = some .silent) ∧
    (∀ t', t1 + w < t' →
      RateLimit.rateLimitStep (RateLimit.runRL [] u w 5 (t1 :: ts)).2 u t' w 5 =
        (.proceed, [(u, ⟨1, t' + w⟩)])) := by
  have hstep0 : RateLimit.rateLimitStep [] u t1 w 5 = (.proceed, [(u, ⟨1, t1 + w⟩)]) := by
    unfold RateLimit.rateLimitStep
    rw [if_neg hu]
    rfl
  have hrun : RateLimit.runRL [] u w 5 (t1 :: ts) =
      (.proceed :: RateLimit.outsFrom 5 (t1 + w) 1 ts, [(u, ⟨1 + ts.length, t1 + w⟩)]) := by
    simp only [RateLimit.runRL, hstep0, RateLimit.runRL_inwindow u w 5 hu ts 1 (t1 + w) hin]
  refine ⟨?_, ?_, ?_, ?_⟩
  · intro i hi5 hilen
    rw [hrun]
    cases i with
    | zero => rfl
    | succ i =>
      have hi : i < ts.length := by omega
      simp only [List.get?_cons_succ, RateLimit.outsFrom_get? 5 (t1 + w) ts 1 i hi]
      rw [if_neg (by omega)]
  · intro hlen
    rw [hrun]
    have h4 : 4 < ts.length := by omega
    refine ⟨(t1 + w - ts.getD 4 0 + 999) / 1000, ?_⟩
    simp only [List.get?_cons_succ, RateLimit.outsFrom_get? 5 (t1 + w) ts 1 4 h4]
    norm_num
  · intro i hi5 hilen
    rw [hrun]
    cases i with
    | zero => omega
    | succ i =>
      have hi : i < ts.length := by omega
      simp only [List.get?_cons_succ, RateLimit.outsFrom_get? 5 (t1 + w) ts 1 i hi]
      rw [if_pos (by omega), if_neg (by omega)]
  · intro t' ht'
    rw [hrun]
    unfold RateLimit.rateLimitStep
    rw [if_neg hu]
    have hget : mapGet [(u, (⟨1 + ts.length, t1 + w⟩ : RateLimit.RLRecord))] u =
        some ⟨1 + ts.length, t1 + w⟩ := by
      rw [mapGet_cons]
      simp
    rw [hget]
    simp only [mapSet, if_pos rfl]
    rw [if_pos (by omega)]
    simp

end RateLimit

/-- Witness for claim C5: eight messages in one window at explicit times;
the sixth answer is the cooldown notice, the seventh and eighth are silent,
and a later message resets the counter. -/
theorem c5_witness :
    (RateLimit.runRL [] 7 60000 5 [0, 1, 2, 3, 4, 5, 6, 7]).1.get? 4 = some .proceed ∧
    (∃ s, (RateLimit.runRL [] 7 60000 5 [0, 1, 2, 3, 4, 5, 6, 7]).1.get? 5 =
      some (.cooldown s)) ∧
    (RateLimit.runRL [] 7 60000 5 [0, 1, 2, 3, 4, 5, 6, 7]).1.get? 7 = some .silent ∧
    RateLimit.rateLimitStep (RateLimit.runRL [] 7 60000 5 [0, 1, 2, 3, 4, 5, 6, 7]).2
        7 70000 60000 5 = (.proceed, [(7, ⟨1, 130000⟩)]) := by
  have h := RateLimit.c5_rate_limit_window 7 60000 0 (by decide) [1, 2, 3, 4, 5, 6, 7]
    (by decide)
  exact ⟨h.1 4 (by decide) (by decide), h.2.1 (by decide),
    h.2.2.1 7 (by decide) (by decide), h.2.2.2 70000 (by decide)⟩

/-- Newline-free strings are fixed by the blank-line collapsing replace of
the compressor. -/
theorem collapseNl2Aux_fix (l : Str) (h : ∀ c ∈ l, c ≠ '\n') :
    collapseNl2Aux false l = l := by
  induction l with
  | nil => rfl
  | cons c cs ih =>
    have hc : c ≠ '\n' := h c (List.mem_cons_self _ _)
    have ihcs := ih fun c' hc' => h c' (List.mem_cons_of_mem _ hc')
    simp only [collapseNl2Aux, if_neg hc, ihcs]

/-- A takeWhile that stops inside the first list ignores anything appended
behind it. -/
theorem takeWhile_append_left (p : Char → Bool) (l1 l2 : Str)
    (h : l1.takeWhile p ≠ l1) : (l1 ++ l2).takeWhile p = l1.takeWhile p := by
  induction l1 with
  | nil => simp at h
  | cons c cs ih =>
    by_cases hp : p c
    · simp only [List.cons_append, List.takeWhile_cons, hp, if_true]
      have hcs : cs.takeWhile p ≠ cs := by
        intro he
        exact h (by simp [List.takeWhile_cons, hp, he])
      rw [ih hcs]
    · simp [List.takeWhile_cons, hp]

/-- A contract-address scan fails on a text with no zero character. -/
theorem findContract_none (l : Str) (h : ∀ c ∈ l, c ≠ '0') :
    Compressor.findContract l = none := by
  induction l with
  | nil => rfl
  | cons c cs ih =>
    have hc : c ≠ '0' := h c (List.mem_cons_self _ _)
    have ihcs := ih fun c' hc' => h c' (List.mem_cons_of_mem _ hc')
    have hmatch : Compressor.matchContractAt (c :: cs) = none := by
      cases cs with
      | nil => rfl
      | cons d rest =>
        simp only [Compressor.matchContractAt]
        rw [if_neg (by tauto)]
    unfold Compressor.findContract
    rw [hmatch, ihcs]

/-- Substring containment fails when the haystack never carries the first
character of the needle. -/
theorem containsSub_false (hay : Str) (c0 : Char) (rest : Str)
    (h : ∀ c ∈ hay, c ≠ c0) : containsSub hay (c0 :: rest) = false := by
  induction hay with
  | nil => rfl
  | cons c cs ih =>
    have hc : c ≠ c0 := h c (List.mem_cons_self _ _)
    have ihcs := ih fun c' hc' => h c' (List.mem_cons_of_mem _ hc')
    have hpre : (c0 :: rest).isPrefixOf (c :: cs) = false := by
      have hbeq : (c0 == c) = false := beq_eq_false_iff_ne.mpr (Ne.symm hc)
      simp [List.isPrefixOf, hbeq]
    unfold containsSub
    rw [hpre]
    simpa using ihcs

theorem c8text_length : c8text.length = 3623 := by
  rw [c8text, List.length_append, List.length_replicate]
  rfl

theorem c8text_chars (c : Char) (hc : c ∈ c8text) :
    c ∈ ("As an AI I wrote this. ".toList : Str) ∨ c = 'x' := by
  unfold c8text at hc
  rcases List.mem_append.mp hc with h | h
  · exact Or.inl h
  · exact Or.inr (List.eq_of_mem_replicate h)

theorem c8text_no (c0 : Char) (hlit : ∀ c ∈ ("As an AI I wrote this. ".toList : Str), c ≠ c0)
    (hx : ('x' : Char) ≠ c0) : ∀ c ∈ c8text, c ≠ c0 := by
  intro c hc
  rcases c8text_chars c hc with h | h
  · exact hlit c h
  · rw [h]; exact hx

theorem c8_firstSentence :
    Compressor.getFirstSentence c8text = "As an AI I wrote this.".toList := by
  decide

theorem c8_extractFacts : Compressor.extractFacts c8text = [] := by
  have h1 : Compressor.findContract c8text = none :=
    findContract_none c8text (c8text_no '0' (by decide) (by decide))
  have h2 : containsSub c8text ['8', '8', '8', '8', '8'] = false :=
    containsSub_false c8text '8' ['8', '8', '8', '8']
      (c8text_no '8' (by decide) (by decide))
  have h2b : containsSub c8text "88888".toList = false := by
    rw [(by decide : ("88888".toList : Str) = ['8', '8', '8', '8', '8'])]
    exact h2
  simp [Compressor.extractFacts, h1, h2, h2b]

theorem c8_compress : Compressor.compress c8text 3000 = "As an AI I wrote this.".toList := by
  have hnl : collapseNl2 c8text = c8text :=
    collapseNl2Aux_fix c8text (c8text_no '\n' (by decide) (by decide))
  have hS : ("As an AI I wrote this.".toList : Str).length = 22 := by decide
  simp only [Compressor.compress, hnl, c8text_length, c8_firstSentence, c8_extractFacts,
    List.foldl_nil]
  norm_num [hS]

theorem c8_lengthStage : Validator.lengthStage c8text = "As an AI I wrote this.".toList := by
  simp only [Validator.lengthStage, Validator.SOFT_CHAR_LIMIT, c8_compress]
  rw [if_neg (by decide)]

/-- Claim C8: in validate, the length correction runs before the
forbidden-pattern scan, so a response over the hard ceiling whose
post-compression text still matches a forbidden output pattern is rejected
with the forbidden-content reason (and marked compressed), not for any
length-related reason. -/
theorem c8_compress_before_forbidden (t : Str) (tok : Nat) (fc ft : Bool) (g : Nat)
    (budget : Nat) (h1 : Validator.HARD_CHAR_LIMIT < t.length)
    (h2 : Validator.forbiddenAny (Validator.lengthStage t) = true) :
    Validator.validate ⟨t, tok, fc, ft, g⟩ budget =
      ⟨false, [], true, some "Contains forbidden content".toList⟩ := by
  have hmin : ¬(t.length < Validator.MIN_RESPONSE_LENGTH) := by
    simp only [Validator.MIN_RESPONSE_LENGTH]
    simp only [Validator.HARD_CHAR_LIMIT] at h1
    omega
  simp only [Validator.validate]
  rw [if_neg hmin]
  simp only [if_pos h1, h2, if_true, decide_eq_true_eq]
  simp [h1]

/-- Witness for claim C8: the concrete 3623-character text whose compression
is its forbidden first sentence is rejected for forbidden content. -/
theorem c8_witness :
    Validator.HARD_CHAR_LIMIT < c8text.length ∧
    Validator.validate ⟨c8text, 0, false, false, 0⟩ 1000 =
      ⟨false, [], true, some "Contains forbidden content".toList⟩ := by
  have h1 : Validator.HARD_CHAR_LIMIT < c8text.length := by
    rw [c8text_length]
    decide
  have h2 : Validator.forbiddenAny (Validator.lengthStage c8text) = true := by
    rw [c8_lengthStage]
    decide
  exact ⟨h1, c8_compress_before_forbidden c8text 0 false false 0 1000 h1 h2⟩

theorem char_eq_of_toNat {a b : Char} (h : a.toNat = b.toNat) : a = b := by
  rw [← Char.ofNat_toNat a, ← Char.ofNat_toNat b, h]

theorem toLowerAscii_toNat (c : Char) (h1 : 65 ≤ c.toNat) (h2 : c.toNat ≤ 90) :
    (toLowerAscii c).toNat = c.toNat + 32 := by
  unfold toLowerAscii
  rw [if_pos ⟨h1, h2⟩]
  have hv : (c.toNat + 32).isValidChar := Or.inl (by omega)
  unfold Char.ofNat
  rw [dif_pos hv]
  rfl

theorem toLowerAscii_eq_self (c : Char) (h : ¬(65 ≤ c.toNat ∧ c.toNat ≤ 90)) :
    toLowerAscii c = c := by
  unfold toLowerAscii
  rw [if_neg h]

theorem toLowerAscii_idem (c : Char) :
    toLowerAscii (toLowerAscii c) = toLowerAscii c := by
  by_cases h : 65 ≤ c.toNat ∧ c.toNat ≤ 90
  · have hn := toLowerAscii_toNat c h.1 h.2
    apply toLowerAscii_eq_self
    rw [hn]
    omega
  · rw [toLowerAscii_eq_self c h]
    exact toLowerAscii_eq_self c h

theorem notWs_of_ge33 (c : Char) (h : 33 ≤ c.toNat) : isWs c = false := by
  unfold isWs
  simp only [Bool.or_eq_false_iff, decide_eq_false_iff_not]
  refine ⟨⟨⟨⟨⟨?_, ?_⟩, ?_⟩, ?_⟩, ?_⟩, ?_⟩ <;>
    · intro hh
      rw [hh] at h
      exact absurd h (by decide)

theorem isWs_toLowerAscii (c : Char) : isWs (toLowerAscii c) = isWs c := by
  by_cases h : 65 ≤ c.toNat ∧ c.toNat ≤ 90
  · rw [notWs_of_ge33 _ (by rw [toLowerAscii_toNat c h.1 h.2]; omega),
      notWs_of_ge33 _ (by omega)]
  · rw [toLowerAscii_eq_self c h]

theorem mem_collapseWsAux (l : Str) :
    ∀ (b : Bool) (c : Char), c ∈ collapseWsAux b l → c = ' ' ∨ c ∈ l := by
  induction l with
  | nil => intro b c hc; simp [collapseWsAux] at hc
  | cons d cs ih =>
    intro b c hc
    by_cases hd : isWs d
    · cases b with
      | true =>
        simp only [collapseWsAux, if_pos hd, if_true] at hc
        rcases ih true c hc with h | h
        · exact Or.inl h
        · exact Or.inr (List.mem_cons_of_mem _ h)
      | false =>
        simp only [collapseWsAux, if_pos hd] at hc
        rcases List.mem_cons.mp hc with h | h
        · exact Or.inl h
        · rcases ih true c h with h2 | h2
          · exact Or.inl h2
          · exact Or.inr (List.mem_cons_of_mem _ h2)
    · have hbranch : collapseWsAux b (d :: cs) = d :: collapseWsAux false cs := by
        cases b <;> simp [collapseWsAux, hd]
      rw [hbranch] at hc
      rcases List.mem_cons.mp hc with h | h
      · exact Or.inr (h ▸ List.mem_cons_self _ _)
      · rcases ih false c h with h2 | h2
        · exact Or.inl h2
        · exact Or.inr (List.mem_cons_of_mem _ h2)

theorem collapseWsAux_ws_space (l : Str) :
    ∀ (b : Bool) (c : Char), c ∈ collapseWsAux b l → isWs c = true → c = ' ' := by
  induction l with
  | nil => intro b c hc; simp [collapseWsAux] at hc
  | cons d cs ih =>
    intro b c hc hws
    by_cases hd : isWs d
    · cases b with
      | true =>
        simp only [collapseWsAux, if_pos hd, if_true] at hc
        exact ih true c hc hws
      | false =>
        simp only [collapseWsAux, if_pos hd] at hc
        rcases List.mem_cons.mp hc with h | h
        · exact h
        · exact ih true c h hws
    · have hbranch : collapseWsAux b (d :: cs) = d :: collapseWsAux false cs := by
        cases b <;> simp [collapseWsAux, hd]
      rw [hbranch] at hc
      rcases List.mem_cons.mp hc with h | h
      · rw [h] at hws
        exact absurd hws (by simp [hd])
      · exact ih false c h hws

theorem collapseWsAux_chain (l : Str) :
    List.Chain' NoWsPair (collapseWsAux false l) ∧
      (List.Chain' NoWsPair (collapseWsAux true l) ∧
        ∀ c, (collapseWsAux true l).head? = some c → isWs c = false) := by
  induction l with
  | nil => exact ⟨List.chain'_nil, List.chain'_nil, by simp [collapseWsAux]⟩
  | cons d cs ih =>
    by_cases hd : isWs d
    · have htrue : collapseWsAux true (d :: cs) = collapseWsAux true cs := by
        simp [collapseWsAux, hd]
      have hfalse : collapseWsAux false (d :: cs) = ' ' :: collapseWsAux true cs := by
        simp [collapseWsAux, hd]
      refine ⟨?_, ?_, ?_⟩
      · rw [hfalse, List.chain'_cons']
        refine ⟨?_, ih.2.1⟩
        intro y hy
        intro hpair
        exact (by simp [ih.2.2 y hy] at hpair)
      · rw [htrue]; exact ih.2.1
      · rw [htrue]; exact ih.2.2
    · have hbranch : ∀ b, collapseWsAux b (d :: cs) = d :: collapseWsAux false cs := by
        intro b; cases b <;> simp [collapseWsAux, hd]
      have hchain : List.Chain' NoWsPair (d :: collapseWsAux false cs) := by
        rw [List.chain'_cons']
        refine ⟨?_, ih.1⟩
        intro y _
        intro hpair
        simp [hd] at hpair
      refine ⟨?_, ?_, ?_⟩
      · rw [hbranch false]; exact hchain
      · rw [hbranch true]; exact hchain
      · rw [hbranch true]
        intro c hc
        injection hc with hc
        subst hc
        simpa using hd

theorem collapseWsAux_fix (l : Str) (h1 : ∀ c ∈ l, isWs c = true → c = ' ')
    (h2 : List.Chain' NoWsPair l) :
    collapseWsAux false l = l ∧
      ((∀ c, l.head? = some c → isWs c = false) → collapseWsAux true l = l) := by
  induction l with
  | nil => exact ⟨rfl, fun _ => rfl⟩
  | cons d cs ih =>
    have hcs1 : ∀ c ∈ cs, isWs c = true → c = ' ' :=
      fun c hc => h1 c (List.mem_cons_of_mem _ hc)
    have hchain := (List.chain'_cons'.mp h2)
    have ihcs := ih hcs1 hchain.2
    by_cases hd : isWs d
    · have hdsp : d = ' ' := h1 d (List.mem_cons_self _ _) hd
      have hcshead : ∀ c, cs.head? = some c → isWs c = false := by
        intro c hc
        have := hchain.1 c hc
        unfold NoWsPair at this
        by_cases hwc : isWs c
        · exact absurd ⟨hd, hwc⟩ this
        · simpa using hwc
      constructor
      · have heq : collapseWsAux false (d :: cs) = ' ' :: collapseWsAux true cs := by
          simp [collapseWsAux, hd]
        rw [heq, ihcs.2 hcshead, hdsp]
      · intro hh
        have := hh d rfl
        rw [hd] at this
        cases this
    · constructor
      · simp only [collapseWsAux, if_neg hd]
        rw [ihcs.1]
      · intro _
        simp only [collapseWsAux, if_neg hd]
        rw [ihcs.1]

theorem collapseWsAux_ne_nil (l : Str) :
    ∀ b, (∃ x ∈ l, isWs x = false) → collapseWsAux b l ≠ [] := by
  induction l with
  | nil => intro b h; simp at h
  | cons d cs ih =>
    intro b h
    by_cases hd : isWs d
    · have hcs : ∃ x ∈ cs, isWs x = false := by
        obtain ⟨x, hx, hxw⟩ := h
        rcases List.mem_cons.mp hx with h2 | h2
        · rw [h2] at hxw; rw [hxw] at hd; cases hd
        · exact ⟨x, h2, hxw⟩
      cases b with
      | true =>
        simp only [collapseWsAux, if_pos hd, if_true]
        exact ih true hcs
      | false =>
        simp [collapseWsAux, hd]
    · have hbranch : collapseWsAux b (d :: cs) = d :: collapseWsAux false cs := by
        cases b <;> simp [collapseWsAux, hd]
      rw [hbranch]
      simp

theorem collapseWsAux_getLast (l : Str) :
    ∀ b, (∀ c, l.getLast? = some c → isWs c = false) →
    ∀ c, (collapseWsAux b l).getLast? = some c → isWs c = false := by
  induction l with
  | nil => intro b _ c hc; simp [collapseWsAux] at hc
  | cons d cs ih =>
    intro b hl c hc
    cases cs with
    | nil =>
      have hd : isWs d = false := hl d rfl
      have hb : collapseWsAux b [d] = [d] := by
        cases b <;> simp [collapseWsAux, hd]
      rw [hb] at hc
      injection hc with hc
      rw [← hc]
      exact hd
    | cons e cs' =>
      have hlcs : ∀ c, (e :: cs').getLast? = some c → isWs c = false := by
        intro c hc2
        exact hl c (by rw [List.getLast?_cons_cons]; exact hc2)
      have hex : ∃ x ∈ e :: cs', isWs x = false := by
        cases hg : (e :: cs').getLast? with
        | none => simp at hg
        | some g =>
          exact ⟨g, List.mem_of_mem_getLast? hg, hlcs g hg⟩
      by_cases hd : isWs d
      · cases b with
        | true =>
          have heq : collapseWsAux true (d :: e :: cs') = collapseWsAux true (e :: cs') := by
            simp [collapseWsAux, hd]
          rw [heq] at hc
          exact ih true hlcs c hc
        | false =>
          have heq : collapseWsAux false (d :: e :: cs') =
              ' ' :: collapseWsAux true (e :: cs') := by
            simp [collapseWsAux, hd]
          rw [heq] at hc
          have hne := collapseWsAux_ne_nil (e :: cs') true hex
          cases hX : collapseWsAux true (e :: cs') with
          | nil => exact absurd hX hne
          | cons x xs =>
            rw [hX, List.getLast?_cons_cons] at hc
            exact ih true hlcs c (by rw [hX]; exact hc)
      · have hbranch : collapseWsAux b (d :: e :: cs') =
            d :: collapseWsAux false (e :: cs') := by
          cases b <;> simp [collapseWsAux, hd]
        rw [hbranch] at hc
        have hne := collapseWsAux_ne_nil (e :: cs') false hex
        cases hX : collapseWsAux false (e :: cs') with
        | nil => exact absurd hX hne
        | cons x xs =>
          rw [hX, List.getLast?_cons_cons] at hc
          exact ih false hlcs c (by rw [hX]; exact hc)

theorem collapseWsAux_head (l : Str) (hh : ∀ c, l.head? = some c → isWs c = false) :
    ∀ c, (collapseWsAux false l).head? = some c → isWs c = false := by
  cases l with
  | nil => intro c hc; simp [collapseWsAux] at hc
  | cons d cs =>
    intro c hc
    have hd : isWs d = false := hh d rfl
    simp only [collapseWsAux, hd] at hc
    simp at hc
    subst hc
    exact hd

theorem map_fix {f : Char → Char} (l : Str) (h : ∀ c ∈ l, f c = c) : l.map f = l := by
  induction l with
  | nil => rfl
  | cons d cs ih =>
    simp only [List.map_cons]
    rw [h d (List.mem_cons_self _ _), ih fun c hc => h c (List.mem_cons_of_mem _ hc)]

theorem trimStr_fix (l : Str) (hh : ∀ c, l.head? = some c → isWs c = false)
    (hl : ∀ c, l.getLast? = some c → isWs c = false) : trimStr l = l := by
  unfold trimStr trimEnd
  have h1 : l.dropWhile isWs = l := by
    cases l with
    | nil => rfl
    | cons a t =>
      rw [List.dropWhile_cons, if_neg (by simp [hh a rfl])]
  rw [h1]
  have h2 : l.reverse.dropWhile isWs = l.reverse := by
    cases hr : l.reverse with
    | nil => rfl
    | cons a t =>
      rw [List.dropWhile_cons, if_neg ?_]
      have : l.reverse.head? = some a := by rw [hr]; rfl
      rw [List.head?_reverse] at this
      simp [hl a this]
  rw [h2, List.reverse_reverse]

theorem mem_trimStr (l : Str) (c : Char) (hc : c ∈ trimStr l) : c ∈ l := by
  unfold trimStr trimEnd at hc
  have s1 := List.dropWhile_sublist (l := l) isWs
  have s2 := List.dropWhile_sublist (l := (l.dropWhile isWs).reverse) isWs
  have s3 := s2.reverse
  rw [List.reverse_reverse] at s3
  exact s1.subset (s3.subset hc)

theorem head?_dropWhile (p : Char → Bool) (l : Str) :
    ∀ c, (l.dropWhile p).head? = some c → p c = false := by
  induction l with
  | nil => intro c hc; simp at hc
  | cons d cs ih =>
    intro c hc
    rw [List.dropWhile_cons] at hc
    by_cases hd : p d
    · rw [if_pos hd] at hc
      exact ih c hc
    · rw [if_neg hd] at hc
      injection hc with hc
      rw [← hc]
      simpa using hd

theorem head_of_trimEnd (l : Str) (c : Char) (hc : (trimEnd l).head? = some c) :
    l.head? = some c := by
  unfold trimEnd at hc
  obtain ⟨w, hw⟩ := List.dropWhile_suffix (l := l.reverse) isWs
  have hne : l.reverse.dropWhile isWs ≠ [] := by
    intro he
    rw [he] at hc
    simp at hc
  have hlast : (l.reverse.dropWhile isWs).getLast? = some c := by
    rw [List.head?_reverse] at hc
    exact hc
  have hlast2 : l.reverse.getLast? = some c := by
    rw [← hw, List.getLast?_append_of_ne_nil w hne]
    exact hlast
  rw [List.getLast?_reverse] at hlast2
  exact hlast2

theorem dupNormalize_idem (t : Str) :
    DupGuard.dupNormalize (DupGuard.dupNormalize t) = DupGuard.dupNormalize t := by
  have hzhead : ∀ c, (trimStr (lowerStr t)).head? = some c → isWs c = false := by
    intro c hc
    have hc' : (trimEnd ((lowerStr t).dropWhile isWs)).head? = some c := hc
    have := head_of_trimEnd _ c hc'
    exact head?_dropWhile isWs (lowerStr t) c this
  have hzlast : ∀ c, (trimStr (lowerStr t)).getLast? = some c → isWs c = false := by
    intro c hc
    have hc' : ((((lowerStr t).dropWhile isWs).reverse.dropWhile isWs).reverse).getLast? =
        some c := hc
    rw [List.getLast?_reverse] at hc'
    exact head?_dropWhile isWs _ c hc'
  have hlower : lowerStr (DupGuard.dupNormalize t) = DupGuard.dupNormalize t := by
    apply map_fix
    intro c hc
    rcases mem_collapseWsAux (trimStr (lowerStr t)) false c hc with h | h
    · rw [h]; decide
    · have h2 : c ∈ lowerStr t := mem_trimStr _ c h
      obtain ⟨a, _, ha⟩ := List.mem_map.mp h2
      rw [← ha]
      exact toLowerAscii_idem a
  have htrim : trimStr (DupGuard.dupNormalize t) = DupGuard.dupNormalize t := by
    refine trimStr_fix _ ?_ ?_
    · exact collapseWsAux_head (trimStr (lowerStr t)) hzhead
    · exact collapseWsAux_getLast (trimStr (lowerStr t)) false hzlast
  have hcoll : collapseWsAux false (DupGuard.dupNormalize t) = DupGuard.dupNormalize t := by
    refine (collapseWsAux_fix _ ?_ ?_).1
    · exact fun c hc => collapseWsAux_ws_space (trimStr (lowerStr t)) false c hc
    · exact (collapseWsAux_chain (trimStr (lowerStr t))).1
  show collapseWs (trimStr (lowerStr (DupGuard.dupNormalize t))) = DupGuard.dupNormalize t
  rw [hlower, htrim]
  exact hcoll

theorem normalizeKey_idem_of_trimmed (q : Str)
    (h : trimStr (ResponseCache.normalizeKey q) = ResponseCache.normalizeKey q) :
    ResponseCache.normalizeKey (ResponseCache.normalizeKey q) =
      ResponseCache.normalizeKey q := by
  have hlower : lowerStr (ResponseCache.normalizeKey q) = ResponseCache.normalizeKey q := by
    apply map_fix
    intro c hc
    rcases mem_collapseWsAux _ false c hc with hsp | hmem
    · rw [hsp]; decide
    · have h1 : c ∈ trimStr (lowerStr q) := (List.mem_filter.mp hmem).1
      have h2 : c ∈ lowerStr q := mem_trimStr _ c h1
      obtain ⟨a, _, ha⟩ := List.mem_map.mp h2
      rw [← ha]
      exact toLowerAscii_idem a
  have hfilter : (ResponseCache.normalizeKey q).filter (fun c => isWordC c || isWs c) =
      ResponseCache.normalizeKey q := by
    rw [List.filter_eq_self]
    intro c hc
    rcases mem_collapseWsAux _ false c hc with hsp | hmem
    · rw [hsp]; decide
    · exact (List.mem_filter.mp hmem).2
  have hcoll : collapseWsAux false (ResponseCache.normalizeKey q) =
      ResponseCache.normalizeKey q := by
    refine (collapseWsAux_fix _ ?_ ?_).1
    · exact fun c hc => collapseWsAux_ws_space _ false c hc
    · exact (collapseWsAux_chain _).1
  show collapseWs ((trimStr (lowerStr (ResponseCache.normalizeKey q))).filter
    (fun c => isWordC c || isWs c)) = ResponseCache.normalizeKey q
  rw [hlower, h, hfilter]
  exact hcoll

/-- Claim C9, amended: the duplicate-guard normalization is idempotent for
every input; the cache-key normalization is idempotent on every input whose
normalized form is already trim-fixed (the counterexample shows that when
punctuation deletion exposes fresh edge whitespace this fails). -/
theorem c9_amended :
    (∀ t : Str, DupGuard.dupNormalize (DupGuard.dupNormalize t) =
      DupGuard.dupNormalize t) ∧
    (∀ q : Str, trimStr (ResponseCache.normalizeKey q) = ResponseCache.normalizeKey q →
      ResponseCache.normalizeKey (ResponseCache.normalizeKey q) =
        ResponseCache.normalizeKey q) :=
  ⟨dupNormalize_idem, normalizeKey_idem_of_trimmed⟩

/-- Witness for the amended claim C9 at concrete inputs. -/
theorem c9_amended_witness :
    DupGuard.dupNormalize (DupGuard.dupNormalize "  What   is PEPPER? ".toList) =
      DupGuard.dupNormalize "  What   is PEPPER? ".toList ∧
    ResponseCache.normalizeKey (ResponseCache.normalizeKey "What is PEPPER?".toList) =
      ResponseCache.normalizeKey "What is PEPPER?".toList :=
  ⟨c9_amended.1 _, c9_amended.2 "What is PEPPER?".toList (by decide)⟩

theorem char_le_iff (a b : Char) : (a ≤ b) ↔ a.toNat ≤ b.toNat := Iff.rfl

theorem azSp_toNat (c : Char) (h : azSp c = true) :
    (97 ≤ c.toNat ∧ c.toNat ≤ 122) ∨ c.toNat = 32 := by
  simp only [azSp, Bool.or_eq_true, Bool.and_eq_true, decide_eq_true_eq] at h
  exact h

theorem ne_of_azSp (c d : Char) (h : azSp c = true) (hd : azSp d = false) : c ≠ d := by
  intro he
  subst he
  rw [h] at hd
  exact Bool.noConfusion hd

theorem azSp_lower (c : Char) (h : azSp c = true) : toLowerAscii c = c := by
  refine toLowerAscii_eq_self c ?_
  rcases azSp_toNat c h with ⟨h1, h2⟩ | h3 <;> omega

theorem azSp_subst (c : Char) (h : azSp c = true) : azSp (toLowerAscii c) = true := by
  rw [azSp_lower c h]; exact h

theorem azSp_not_digit (c : Char) (h : azSp c = true) : c.isDigit = false := by
  have h9 : ('9' : Char).toNat = 57 := rfl
  have h0 : ('0' : Char).toNat = 48 := rfl
  rcases azSp_toNat c h with ⟨h1, h2⟩ | h3
  · have hx : ¬ (c.val ≤ (57 : UInt32)) := by
      show ¬ (c.toNat ≤ 57)
      omega
    simp only [Char.isDigit, decide_eq_false hx, Bool.and_false]
  · have hx : ¬ (c.val ≥ (48 : UInt32)) := by
      show ¬ (48 ≤ c.toNat)
      omega
    simp only [Char.isDigit, decide_eq_false hx, Bool.false_and]

theorem azSp_notWs (c : Char) (h : azSp c = true) (hs : c ≠ ' ') : isWs c = false := by
  rcases azSp_toNat c h with ⟨h1, _⟩ | h3
  · exact notWs_of_ge33 c (by omega)
  · exact absurd (@char_eq_of_toNat c ' ' h3) hs

theorem all_cons {P : Char → Bool} {c : Char} {cs : Str} (hc : P c = true)
    (hcs : ∀ y ∈ cs, P y = true) : ∀ y ∈ c :: cs, P y = true := by
  intro y hy
  rcases List.mem_cons.mp hy with h | h
  · exact h ▸ hc
  · exact hcs y h

theorem litCI_subset (pat : Str) :
    ∀ (l r : Str), litCI pat l = some r → ∀ c ∈ r, c ∈ l := by
  induction pat with
  | nil =>
    intro l r h c hc
    simp only [litCI] at h
    exact (Option.some.inj h) ▸ hc
  | cons p ps ih =>
    intro l r h c hc
    cases l with
    | nil => exact absurd h (by simp [litCI])
    | cons a as =>
      simp only [litCI] at h
      by_cases he : toLowerAscii a = toLowerAscii p
      · rw [if_pos he] at h
        exact List.mem_cons_of_mem a (ih as r h c hc)
      · rw [if_neg he] at h
        exact absurd h (by simp)

theorem litCI_none_bad (pat : Str) :
    ∀ (l : Str), (∀ x ∈ l, azSp x = true) →
      (∃ p ∈ pat, azSp (toLowerAscii p) = false) → litCI pat l = none := by
  induction pat with
  | nil =>
    intro l _ hp
    exact absurd hp (by simp)
  | cons p ps ih =>
    intro l hl hp
    cases l with
    | nil => simp [litCI]
    | cons a as =>
      simp only [litCI]
      by_cases he : toLowerAscii a = toLowerAscii p
      · rw [if_pos he]
        rcases hp with ⟨p2, hmem, hbad⟩
        rcases List.mem_cons.mp hmem with h1 | h1
        · subst h1
          rw [← he, azSp_lower a (hl a (List.mem_cons_self a as))] at hbad
          exact absurd (hl a (List.mem_cons_self a as)) (by simp [hbad])
        · exact ih as (fun x hx => hl x (List.mem_cons_of_mem a hx)) ⟨p2, h1, hbad⟩
      · rw [if_neg he]

theorem litEx_plain_none (pat l : Str) (hl : ∀ x ∈ l, azSp x = true) (d : Char)
    (hd : pat.head? = some d) (hda : azSp d = false) : litEx pat l = none := by
  cases pat with
  | nil => simp at hd
  | cons p ps =>
    have hpd : p = d := by simpa using hd
    subst hpd
    cases l with
    | nil => simp [litEx, List.isPrefixOf]
    | cons c cs =>
      have hc := hl c (List.mem_cons_self c cs)
      have hne : (p == c) = false :=
        beq_eq_false_iff_ne.mpr (Ne.symm (ne_of_azSp c p hc hda))
      simp [litEx, List.isPrefixOf, hne]

theorem drop_takeWhile_len (p : Char → Bool) :
    ∀ l : Str, l.drop (l.takeWhile p).length = l.dropWhile p := by
  intro l
  induction l with
  | nil => rfl
  | cons c cs ih =>
    by_cases h : p c
    · simp [List.takeWhile_cons, List.dropWhile_cons, h, ih]
    · simp [List.takeWhile_cons, List.dropWhile_cons, h]

theorem runReplAux_nofire (m : Option Char → Str → Option (Nat × Str)) (P : Char → Bool)
    (hm : ∀ (x c : Char) (cs : Str), P x = true → P c = true →
      (∀ y ∈ cs, P y = true) → m (some x) (c :: cs) = none) :
    ∀ (fuel : Nat) (x : Char) (l : Str), P x = true → (∀ y ∈ l, P y = true) →
      runReplAux m fuel (some x) l = l := by
  intro fuel
  induction fuel with
  | zero => intro x l _ _; rfl
  | succ f ih =>
    intro x l hx hl
    cases l with
    | nil => rfl
    | cons c cs =>
      have hc := hl c (List.mem_cons_self c cs)
      have hcs : ∀ y ∈ cs, P y = true := fun y hy => hl y (List.mem_cons_of_mem c hy)
      simp only [runReplAux, hm x c cs hx hc hcs]
      rw [ih c cs hc hcs]

theorem runRepl_nofire (m : Option Char → Str → Option (Nat × Str)) (P : Char → Bool)
    (hm : ∀ (x c : Char) (cs : Str), P x = true → P c = true →
      (∀ y ∈ cs, P y = true) → m (some x) (c :: cs) = none)
    (l : Str) (hl : ∀ y ∈ l, P y = true)
    (h0 : ∀ (c : Char) (cs : Str), l = c :: cs → m none (c :: cs) = none) :
    runRepl m l = l := by
  cases l with
  | nil => rfl
  | cons c cs =>
    have hc := hl c (List.mem_cons_self c cs)
    have hcs : ∀ y ∈ cs, P y = true := fun y hy => hl y (List.mem_cons_of_mem c hy)
    simp only [runRepl, List.length_cons, runReplAux, h0 c cs rfl]
    rw [runReplAux_nofire m P hm (cs.length + 1) c cs hc hcs]

theorem runRepl_nofireS (mS : Str → Option (Nat × Str)) (P : Char → Bool)
    (hm : ∀ (c : Char) (cs : Str), P c = true → (∀ y ∈ cs, P y = true) →
      mS (c :: cs) = none)
    (l : Str) (hl : ∀ y ∈ l, P y = true) :
    runRepl (fun _ s => mS s) l = l := by
  refine runRepl_nofire _ P ?_ l hl ?_
  · intro x c cs _ hc hcs
    exact hm c cs hc hcs
  · intro c cs he
    refine hm c cs (hl c ?_) (fun y hy => hl y ?_)
    · rw [he]; exact List.mem_cons_self c cs
    · rw [he]; exact List.mem_cons_of_mem c hy

theorem mWrap_plain (dl : Str) (ban : Char) (l : Str) (hl : ∀ x ∈ l, azSp x = true)
    (d : Char) (hd : dl.head? = some d) (hda : azSp d = false) :
    Formatter.mWrap dl ban l = none := by
  unfold Formatter.mWrap
  rw [litEx_plain_none dl l hl d hd hda]

theorem mFence_plain (l : Str) (hl : ∀ x ∈ l, azSp x = true) :
    Formatter.mFence l = none := by
  unfold Formatter.mFence
  rw [litEx_plain_none [Formatter.btick, Formatter.btick, Formatter.btick] l hl Formatter.btick rfl (by decide)]

theorem mMdLink_plain (l : Str) (hl : ∀ x ∈ l, azSp x = true) :
    Formatter.mMdLink l = none := by
  cases l with
  | nil => rfl
  | cons c cs =>
    have hc : c ≠ '[' := ne_of_azSp c '[' (hl c (List.mem_cons_self c cs)) (by decide)
    unfold Formatter.mMdLink
    split
    · next r1 heq => exact absurd (List.cons.inj heq).1 hc
    · rfl

theorem mHeader_plain (prev : Option Char) (l : Str)
    (hp : ∀ x, prev = some x → azSp x = true) (hl : ∀ x ∈ l, azSp x = true) :
    Formatter.mHeader prev l = none := by
  cases prev with
  | some x =>
    have hx : x ≠ '\n' := ne_of_azSp x '\n' (hp x rfl) (by decide)
    simp [Formatter.mHeader, atLS, hx]
  | none =>
    cases l with
    | nil => simp [Formatter.mHeader, atLS]
    | cons c cs =>
      have hc : c ≠ '#' := ne_of_azSp c '#' (hl c (List.mem_cons_self c cs)) (by decide)
      simp [Formatter.mHeader, atLS, List.takeWhile_cons, hc]

theorem mListMarker_plain (prev : Option Char) (l : Str)
    (hp : ∀ x, prev = some x → azSp x = true) (hl : ∀ x ∈ l, azSp x = true) :
    Formatter.mListMarker prev l = none := by
  cases prev with
  | some x =>
    have hx : x ≠ '\n' := ne_of_azSp x '\n' (hp x rfl) (by decide)
    simp [Formatter.mListMarker, atLS, hx]
  | none =>
    cases l with
    | nil => simp [Formatter.mListMarker, atLS]
    | cons c cs =>
      have h1 : c ≠ '-' := ne_of_azSp c '-' (hl c (List.mem_cons_self c cs)) (by decide)
      have h2 : c ≠ '*' := ne_of_azSp c '*' (hl c (List.mem_cons_self c cs)) (by decide)
      have h3 : c ≠ '+' := ne_of_azSp c '+' (hl c (List.mem_cons_self c cs)) (by decide)
      simp [Formatter.mListMarker, atLS, h1, h2, h3]

theorem mMdLinkOpen_plain (l : Str) (hl : ∀ x ∈ l, azSp x = true) :
    Formatter.mMdLinkOpen l = none := by
  cases l with
  | nil => rfl
  | cons c cs =>
    have hc : c ≠ '[' := ne_of_azSp c '[' (hl c (List.mem_cons_self c cs)) (by decide)
    unfold Formatter.mMdLinkOpen
    split
    · next r1 heq => exact absurd (List.cons.inj heq).1 hc
    · rfl

theorem mBracket_plain (l : Str) (hl : ∀ x ∈ l, azSp x = true) :
    Formatter.mBracket l = none := by
  cases l with
  | nil => rfl
  | cons c cs =>
    have hc : c ≠ '[' := ne_of_azSp c '[' (hl c (List.mem_cons_self c cs)) (by decide)
    unfold Formatter.mBracket
    split
    · next r1 heq => exact absurd (List.cons.inj heq).1 hc
    · rfl

theorem mImage_plain (l : Str) (hl : ∀ x ∈ l, azSp x = true) :
    Formatter.mImage l = none := by
  cases l with
  | nil => rfl
  | cons c cs =>
    have hc : c ≠ '!' := ne_of_azSp c '!' (hl c (List.mem_cons_self c cs)) (by decide)
    unfold Formatter.mImage
    split
    · next r1 heq => exact absurd (List.cons.inj heq).1 hc
    · rfl

theorem mHRule_plain (prev : Option Char) (l : Str)
    (hp : ∀ x, prev = some x → azSp x = true) (hl : ∀ x ∈ l, azSp x = true) :
    Formatter.mHRule prev l = none := by
  cases prev with
  | some x =>
    have hx : x ≠ '\n' := ne_of_azSp x '\n' (hp x rfl) (by decide)
    simp [Formatter.mHRule, atLS, hx]
  | none =>
    cases l with
    | nil => simp [Formatter.mHRule, atLS]
    | cons c cs =>
      have h1 : c ≠ '-' := ne_of_azSp c '-' (hl c (List.mem_cons_self c cs)) (by decide)
      have h2 : c ≠ '*' := ne_of_azSp c '*' (hl c (List.mem_cons_self c cs)) (by decide)
      have h3 : c ≠ '_' := ne_of_azSp c '_' (hl c (List.mem_cons_self c cs)) (by decide)
      simp [Formatter.mHRule, atLS, List.takeWhile_cons, h1, h2, h3]

theorem mBlockquote_plain (prev : Option Char) (l : Str)
    (hp : ∀ x, prev = some x → azSp x = true) (hl : ∀ x ∈ l, azSp x = true) :
    Formatter.mBlockquote prev l = none := by
  cases prev with
  | some x =>
    have hx : x ≠ '\n' := ne_of_azSp x '\n' (hp x rfl) (by decide)
    simp [Formatter.mBlockquote, atLS, hx]
  | none =>
    cases l with
    | nil => simp [Formatter.mBlockquote, atLS]
    | cons c cs =>
      have hc : c ≠ '>' := ne_of_azSp c '>' (hl c (List.mem_cons_self c cs)) (by decide)
      simp only [Formatter.mBlockquote, atLS, Bool.not_true, Bool.false_eq_true,
        if_false]
      split
      · next rest heq => exact absurd (List.cons.inj heq).1 hc
      · rfl

theorem stripMarkdown_plain (t : Str) (hl : ∀ x ∈ t, azSp x = true) :
    Formatter.stripMarkdown t = t := by
  have p1 : runRepl (fun _ l => Formatter.mWrap ['*', '*'] '*' l) t = t :=
    runRepl_nofireS _ azSp
      (fun c cs hc hcs => mWrap_plain ['*', '*'] '*' _ (all_cons hc hcs) '*' rfl (by decide)) t hl
  have p2 : runRepl (fun _ l => Formatter.mWrap ['*'] '*' l) t = t :=
    runRepl_nofireS _ azSp
      (fun c cs hc hcs => mWrap_plain ['*'] '*' _ (all_cons hc hcs) '*' rfl (by decide)) t hl
  have p3 : runRepl (fun _ l => Formatter.mWrap ['_', '_'] '_' l) t = t :=
    runRepl_nofireS _ azSp
      (fun c cs hc hcs => mWrap_plain ['_', '_'] '_' _ (all_cons hc hcs) '_' rfl (by decide)) t hl
  have p4 : runRepl (fun _ l => Formatter.mWrap ['_'] '_' l) t = t :=
    runRepl_nofireS _ azSp
      (fun c cs hc hcs => mWrap_plain ['_'] '_' _ (all_cons hc hcs) '_' rfl (by decide)) t hl
  have p5 : runRepl (fun _ l => Formatter.mFence l) t = t :=
    runRepl_nofireS _ azSp (fun c cs hc hcs => mFence_plain _ (all_cons hc hcs)) t hl
  have p6 : runRepl (fun _ l => Formatter.mWrap [Formatter.btick] Formatter.btick l) t
      = t :=
    runRepl_nofireS _ azSp
      (fun c cs hc hcs =>
        mWrap_plain [Formatter.btick] Formatter.btick _ (all_cons hc hcs) Formatter.btick rfl (by decide)) t hl
  have p7 : runRepl Formatter.mHeader t = t :=
    runRepl_nofire _ azSp
      (fun x c cs hx hc hcs =>
        mHeader_plain (some x) _ (fun y hy => (Option.some.inj hy) ▸ hx)
          (all_cons hc hcs))
      t hl
      (fun c cs he =>
        mHeader_plain none _ (fun y hy => Option.noConfusion hy)
          (he ▸ hl))
  have p8 : runRepl Formatter.mListMarker t = t :=
    runRepl_nofire _ azSp
      (fun x c cs hx hc hcs =>
        mListMarker_plain (some x) _ (fun y hy => (Option.some.inj hy) ▸ hx)
          (all_cons hc hcs))
      t hl
      (fun c cs he =>
        mListMarker_plain none _ (fun y hy => Option.noConfusion hy) (he ▸ hl))
  have p9 : runRepl (fun _ l => Formatter.mMdLink l) t = t :=
    runRepl_nofireS _ azSp (fun c cs hc hcs => mMdLink_plain _ (all_cons hc hcs)) t hl
  have p10 : runRepl (fun _ l => Formatter.mMdLinkOpen l) t = t :=
    runRepl_nofireS _ azSp (fun c cs hc hcs => mMdLinkOpen_plain _ (all_cons hc hcs))
      t hl
  have p11 : runRepl (fun _ l => Formatter.mBracket l) t = t :=
    runRepl_nofireS _ azSp (fun c cs hc hcs => mBracket_plain _ (all_cons hc hcs)) t hl
  have p12 : runRepl (fun _ l => Formatter.mImage l) t = t :=
    runRepl_nofireS _ azSp (fun c cs hc hcs => mImage_plain _ (all_cons hc hcs)) t hl
  have p13 : runRepl (fun _ l => Formatter.mWrap ['~', '~'] '~' l) t = t :=
    runRepl_nofireS _ azSp
      (fun c cs hc hcs => mWrap_plain ['~', '~'] '~' _ (all_cons hc hcs) '~' rfl (by decide)) t hl
  have p14 : runRepl Formatter.mHRule t = t :=
    runRepl_nofire _ azSp
      (fun x c cs hx hc hcs =>
        mHRule_plain (some x) _ (fun y hy => (Option.some.inj hy) ▸ hx)
          (all_cons hc hcs))
      t hl
      (fun c cs he => mHRule_plain none _ (fun y hy => Option.noConfusion hy) (he ▸ hl))
  have p15 : runRepl Formatter.mBlockquote t = t :=
    runRepl_nofire _ azSp
      (fun x c cs hx hc hcs =>
        mBlockquote_plain (some x) _ (fun y hy => (Option.some.inj hy) ▸ hx)
          (all_cons hc hcs))
      t hl
      (fun c cs he =>
        mBlockquote_plain none _ (fun y hy => Option.noConfusion hy) (he ▸ hl))
  simp only [Formatter.stripMarkdown]
  rw [p1, p2, p3, p4, p5, p6, p7, p8, p9, p10, p11, p12, p13, p14, p15]

theorem mUrl_plain (l : Str) (hl : ∀ x ∈ l, azSp x = true) :
    VerifiedLinks.mUrl l = none := by
  unfold VerifiedLinks.mUrl
  cases hcase : litCI "http".toList l with
  | none => rfl
  | some r1 =>
    have hr1 : ∀ x ∈ r1, azSp x = true :=
      fun x hx => hl x (litCI_subset _ _ _ hcase x hx)
    have h1 : litEx [':', '/', '/'] r1 = none :=
      litEx_plain_none [':', '/', '/'] _ hr1 ':' rfl (by decide)
    cases r1 with
    | nil => rfl
    | cons c cs =>
      have h2 : litEx [':', '/', '/'] cs = none :=
        litEx_plain_none [':', '/', '/'] _ (fun x hx => hr1 x (List.mem_cons_of_mem c hx))
          ':' rfl (by decide)
      by_cases hs : toLowerAscii c = 's'
      · simp [hs, h1, h2]
      · simp [hs, h1]

theorem mWww_plain (l : Str) (hl : ∀ x ∈ l, azSp x = true) :
    VerifiedLinks.mWww l = none := by
  unfold VerifiedLinks.mWww
  rw [litCI_none_bad _ l hl ⟨'.', by decide, by decide⟩]

theorem mDomain2_plain (l : Str) (hl : ∀ x ∈ l, azSp x = true) :
    VerifiedLinks.mDomain2 l = none := by
  unfold VerifiedLinks.mDomain2
  by_cases hemp : (l.takeWhile VerifiedLinks.isDomC).isEmpty
  · rw [if_pos hemp]
  · rw [if_neg hemp, drop_takeWhile_len]
    cases hdw : l.dropWhile VerifiedLinks.isDomC with
    | nil => rfl
    | cons c r =>
      have hcm : c ∈ l := (List.dropWhile_sublist VerifiedLinks.isDomC).subset (hdw ▸ List.mem_cons_self c r)
      have hc : c ≠ '.' := ne_of_azSp c '.' (hl c hcm) (by decide)
      split
      · next r2 heq => exact absurd (List.cons.inj heq).1 hc
      · rfl

theorem mDomain1_plain (l : Str) (hl : ∀ x ∈ l, azSp x = true) :
    VerifiedLinks.mDomain1 l = none := by
  unfold VerifiedLinks.mDomain1
  by_cases hemp : (l.takeWhile VerifiedLinks.isDomC).isEmpty
  · rw [if_pos hemp]
  · rw [if_neg hemp, drop_takeWhile_len]
    cases hdw : l.dropWhile VerifiedLinks.isDomC with
    | nil => rfl
    | cons c r =>
      have hcm : c ∈ l := (List.dropWhile_sublist VerifiedLinks.isDomC).subset (hdw ▸ List.mem_cons_self c r)
      have hc : c ≠ '.' := ne_of_azSp c '.' (hl c hcm) (by decide)
      split
      · next r2 heq => exact absurd (List.cons.inj heq).1 hc
      · rfl

theorem orphan_go_plain (l : Str) (hl : ∀ x ∈ l, azSp x = true) :
    ∀ alts : List String, VerifiedLinks.mOrphan.go l alts = none := by
  intro alts
  induction alts with
  | nil => rfl
  | cons alt rest ih =>
    rw [VerifiedLinks.mOrphan.go]
    cases hcase : litCI alt.toList l with
    | none => exact ih
    | some r1 =>
      cases r1 with
      | nil => exact ih
      | cons c r =>
        have hc : c ≠ '.' :=
          ne_of_azSp c '.'
            (hl c (litCI_subset _ _ _ hcase c (List.mem_cons_self c r))) (by decide)
        split
        · next a heq =>
          have heq2 :
              (match (c :: r : Str) with
               | '.' :: r2 =>
                 match wsToLineEnd r2 with
                 | some j => some (alt.length + 1 + j, List.take j r2)
                 | none => none
               | _ => none) = some a := heq
          split at heq2
          · next r2 heq3 => exact absurd (List.cons.inj heq3).1 hc
          · exact Option.noConfusion heq2
        · exact ih

theorem mOrphan_plain (prev : Option Char) (l : Str)
    (hp : ∀ x, prev = some x → azSp x = true) (hl : ∀ x ∈ l, azSp x = true) :
    VerifiedLinks.mOrphan prev l = none := by
  unfold VerifiedLinks.mOrphan
  by_cases hw : isWordOpt prev = true
  · rw [if_pos hw]
  · rw [if_neg hw]
    exact orphan_go_plain l hl _

theorem mHandle_plain (l : Str) (hl : ∀ x ∈ l, azSp x = true) :
    VerifiedLinks.mHandle l = none := by
  cases l with
  | nil => rfl
  | cons c cs =>
    have hc : c ≠ '@' := ne_of_azSp c '@' (hl c (List.mem_cons_self c cs)) (by decide)
    unfold VerifiedLinks.mHandle
    split
    · next r1 heq => exact absurd (List.cons.inj heq).1 hc
    · rfl

theorem mEmptyParen_plain (l : Str) (hl : ∀ x ∈ l, azSp x = true) :
    VerifiedLinks.mEmptyParen l = none := by
  cases l with
  | nil => rfl
  | cons c cs =>
    have hc : c ≠ '(' := ne_of_azSp c '(' (hl c (List.mem_cons_self c cs)) (by decide)
    unfold VerifiedLinks.mEmptyParen
    split
    · next r1 heq => exact absurd (List.cons.inj heq).1 hc
    · rfl

theorem mEmptyBracket_plain (l : Str) (hl : ∀ x ∈ l, azSp x = true) :
    VerifiedLinks.mEmptyBracket l = none := by
  cases l with
  | nil => rfl
  | cons c cs =>
    have hc : c ≠ '[' := ne_of_azSp c '[' (hl c (List.mem_cons_self c cs)) (by decide)
    unfold VerifiedLinks.mEmptyBracket
    split
    · next r1 heq => exact absurd (List.cons.inj heq).1 hc
    · rfl

theorem mTrailColon_plain (l : Str) (hl : ∀ x ∈ l, azSp x = true) :
    VerifiedLinks.mTrailColon l = none := by
  cases l with
  | nil => rfl
  | cons c cs =>
    have hc : c ≠ ':' := ne_of_azSp c ':' (hl c (List.mem_cons_self c cs)) (by decide)
    unfold VerifiedLinks.mTrailColon
    split
    · next r1 heq => exact absurd (List.cons.inj heq).1 hc
    · rfl

theorem mNumLine_plain (prev : Option Char) (l : Str)
    (hp : ∀ x, prev = some x → azSp x = true) (hl : ∀ x ∈ l, azSp x = true) :
    VerifiedLinks.mNumLine prev l = none := by
  cases prev with
  | some x =>
    have hx : x ≠ '\n' := ne_of_azSp x '\n' (hp x rfl) (by decide)
    simp [VerifiedLinks.mNumLine, atLS, hx]
  | none =>
    cases l with
    | nil => simp [VerifiedLinks.mNumLine, atLS]
    | cons c cs =>
      have hc : c.isDigit = false := azSp_not_digit c (hl c (List.mem_cons_self c cs))
      simp [VerifiedLinks.mNumLine, atLS, List.takeWhile_cons, hc]

theorem mBulletLine_plain (prev : Option Char) (l : Str)
    (hp : ∀ x, prev = some x → azSp x = true) (hl : ∀ x ∈ l, azSp x = true) :
    VerifiedLinks.mBulletLine prev l = none := by
  cases prev with
  | some x =>
    have hx : x ≠ '\n' := ne_of_azSp x '\n' (hp x rfl) (by decide)
    simp [VerifiedLinks.mBulletLine, atLS, hx]
  | none =>
    have h1 : litEx VerifiedLinks.bullet3 l = none :=
      litEx_plain_none VerifiedLinks.bullet3 l hl 'â' rfl (by decide)
    simp [VerifiedLinks.mBulletLine, atLS, h1]

theorem mLeadNl_plain (prev : Option Char) (l : Str)
    (hl : ∀ x ∈ l, azSp x = true) :
    VerifiedLinks.mLeadNl prev l = none := by
  cases prev with
  | some x => rfl
  | none =>
    cases l with
    | nil => rfl
    | cons c cs =>
      have hc : c ≠ '\n' := ne_of_azSp c '\n' (hl c (List.mem_cons_self c cs)) (by decide)
      simp [VerifiedLinks.mLeadNl, List.takeWhile_cons, hc]

theorem mTrailNl_plain (l : Str) (hl : ∀ x ∈ l, azSp x = true) :
    VerifiedLinks.mTrailNl l = none := by
  cases l with
  | nil => rfl
  | cons c cs =>
    have hc : c ≠ '\n' := ne_of_azSp c '\n' (hl c (List.mem_cons_self c cs)) (by decide)
    simp [VerifiedLinks.mTrailNl, List.takeWhile_cons, hc]

theorem collapseST2_plain (l : Str) (hcl : ∀ x ∈ l, azSp x = true)
    (hns : noTwoSp l = true) : collapseST2 l = l := by
  unfold collapseST2
  induction l with
  | nil => rfl
  | cons c tail ih =>
    cases tail with
    | nil => rfl
    | cons c2 cs =>
      have hct : c ≠ '\t' := ne_of_azSp c '\t' (hcl c (List.mem_cons_self _ _)) (by decide)
      have hc2t : c2 ≠ '\t' :=
        ne_of_azSp c2 '\t'
          (hcl c2 (List.mem_cons_of_mem c (List.mem_cons_self _ _))) (by decide)
      have hcond : (isST c && isST c2) = false := by
        by_cases h1 : c = ' '
        · by_cases h2 : c2 = ' '
          · rw [noTwoSp] at hns
            simp [h1, h2] at hns
          · simp [isST, h2, hc2t]
        · simp [isST, h1, hct]
      have hx : ¬ ((isST c && isST c2) = true) := by
        rw [hcond]
        exact Bool.false_ne_true
      rw [collapseST2Aux, if_neg hx]
      have hns2 : noTwoSp (c2 :: cs) = true := by
        rw [noTwoSp] at hns
        exact ((Bool.and_eq_true _ _).mp hns).2
      rw [ih (fun x hx2 => hcl x (List.mem_cons_of_mem c hx2)) hns2]

theorem replCRLF_plain (l : Str) (hcl : ∀ x ∈ l, x ≠ '\r') : replCRLF l = l := by
  induction l with
  | nil => rfl
  | cons c tail ih =>
    cases tail with
    | nil => rfl
    | cons c2 cs =>
      rw [replCRLF, if_neg (fun h => hcl c (List.mem_cons_self _ _) h.1)]
      rw [ih (fun x hx => hcl x (List.mem_cons_of_mem c hx))]

theorem collapseNl3_plain (l : Str) (hcl : ∀ x ∈ l, x ≠ '\n') : collapseNl3 l = l := by
  unfold collapseNl3
  induction l with
  | nil => rfl
  | cons c tail ih =>
    rw [collapseNl3Aux, if_neg (by simp [hcl c (List.mem_cons_self _ _)])]
    rw [ih (fun x hx => hcl x (List.mem_cons_of_mem c hx))]

theorem wsToLineEnd_plain (c : Char) (cs : Str) (hws : isWs c = false)
    (hnl : c ≠ '\n') : wsToLineEnd (c :: cs) = none := by
  simp [wsToLineEnd, wsToLineEnd.go, wsToLineEnd.lineEnd, List.takeWhile_cons, hws, hnl]

theorem trimStr_plain (l : Str) (hcl : ∀ x ∈ l, azSp x = true)
    (hh : l.head? ≠ some ' ') (hgl : l.getLast? ≠ some ' ') : trimStr l = l := by
  refine trimStr_fix l ?_ ?_
  · intro c hc
    refine azSp_notWs c (hcl c ?_) (fun he => hh (he ▸ hc))
    cases l with
    | nil => exact absurd hc (by simp)
    | cons a t => rw [Option.some.inj hc]; exact List.mem_cons_self c t
  · intro c hc
    exact azSp_notWs c (hcl c (List.mem_of_mem_getLast? hc)) (fun he => hgl (he ▸ hc))

theorem stripAllUrls_plain (t : Str) (hl : ∀ x ∈ t, azSp x = true)
    (hns : noTwoSp t = true) (hh : t.head? ≠ some ' ') (hgl : t.getLast? ≠ some ' ') :
    VerifiedLinks.stripAllUrls t = t := by
  have p1 : runRepl (fun _ l => VerifiedLinks.mUrl l) t = t :=
    runRepl_nofireS _ azSp (fun c cs hc hcs => mUrl_plain _ (all_cons hc hcs)) t hl
  have p2 : runRepl (fun _ l => VerifiedLinks.mWww l) t = t :=
    runRepl_nofireS _ azSp (fun c cs hc hcs => mWww_plain _ (all_cons hc hcs)) t hl
  have p3 : runRepl (fun _ l => VerifiedLinks.mDomain2 l) t = t :=
    runRepl_nofireS _ azSp (fun c cs hc hcs => mDomain2_plain _ (all_cons hc hcs)) t hl
  have p4 : runRepl (fun _ l => VerifiedLinks.mDomain1 l) t = t :=
    runRepl_nofireS _ azSp (fun c cs hc hcs => mDomain1_plain _ (all_cons hc hcs)) t hl
  have p5 : runRepl VerifiedLinks.mOrphan t = t :=
    runRepl_nofire _ azSp
      (fun x c cs hx hc hcs =>
        mOrphan_plain (some x) _ (fun y hy => (Option.some.inj hy) ▸ hx)
          (all_cons hc hcs))
      t hl
      (fun c cs he =>
        mOrphan_plain none _ (fun y hy => Option.noConfusion hy) (he ▸ hl))
  have p6 : runRepl (fun _ l => VerifiedLinks.mHandle l) t = t :=
    runRepl_nofireS _ azSp (fun c cs hc hcs => mHandle_plain _ (all_cons hc hcs)) t hl
  have p7 : runRepl (fun _ l => VerifiedLinks.mEmptyParen l) t = t :=
    runRepl_nofireS _ azSp (fun c cs hc hcs => mEmptyParen_plain _ (all_cons hc hcs))
      t hl
  have p8 : runRepl (fun _ l => VerifiedLinks.mEmptyBracket l) t = t :=
    runRepl_nofireS _ azSp (fun c cs hc hcs => mEmptyBracket_plain _ (all_cons hc hcs))
      t hl
  have p9 : runRepl (fun _ l => VerifiedLinks.mTrailColon l) t = t :=
    runRepl_nofireS _ azSp (fun c cs hc hcs => mTrailColon_plain _ (all_cons hc hcs))
      t hl
  have p10 : collapseST2 t = t := collapseST2_plain t hl hns
  have p11 : runRepl VerifiedLinks.mNumLine t = t :=
    runRepl_nofire _ azSp
      (fun x c cs hx hc hcs =>
        mNumLine_plain (some x) _ (fun y hy => (Option.some.inj hy) ▸ hx)
          (all_cons hc hcs))
      t hl
      (fun c cs he =>
        mNumLine_plain none _ (fun y hy => Option.noConfusion hy) (he ▸ hl))
  have p12 : runRepl VerifiedLinks.mBulletLine t = t :=
    runRepl_nofire _ azSp
      (fun x c cs hx hc hcs =>
        mBulletLine_plain (some x) _ (fun y hy => (Option.some.inj hy) ▸ hx)
          (all_cons hc hcs))
      t hl
      (fun c cs he =>
        mBulletLine_plain none _ (fun y hy => Option.noConfusion hy) (he ▸ hl))
  have p13 : runRepl VerifiedLinks.mLeadNl t = t :=
    runRepl_nofire _ azSp
      (fun x c cs hx hc hcs => mLeadNl_plain (some x) _ (all_cons hc hcs))
      t hl
      (fun c cs he => mLeadNl_plain none _ (he ▸ hl))
  have p14 : runRepl (fun _ l => VerifiedLinks.mTrailNl l) t = t :=
    runRepl_nofireS _ azSp (fun c cs hc hcs => mTrailNl_plain _ (all_cons hc hcs)) t hl
  have p15 : trimStr t = t := trimStr_plain t hl hh hgl
  simp only [VerifiedLinks.stripAllUrls]
  rw [p1, p2, p3, p4, p5, p6, p7, p8, p9, p10, p11, p12, p13, p14, p15]

theorem cleanWhitespace_plain (t : Str) (hl : ∀ x ∈ t, azSp x = true)
    (hns : noTwoSp t = true) (hh : t.head? ≠ some ' ') (hgl : t.getLast? ≠ some ' ') :
    Formatter.cleanWhitespace t = t := by
  have p1 : replCRLF t = t :=
    replCRLF_plain t fun x hx => ne_of_azSp x '\r' (hl x hx) (by decide)
  have p2 : replCR t = t :=
    map_fix t fun c hc => by
      rw [if_neg (ne_of_azSp c '\r' (hl c hc) (by decide))]
  have p3 : collapseNl3 t = t :=
    collapseNl3_plain t fun x hx => ne_of_azSp x '\n' (hl x hx) (by decide)
  have p4 : collapseST2 t = t := collapseST2_plain t hl hns
  have p6 : trimStr t = t := trimStr_plain t hl hh hgl
  simp only [Formatter.cleanWhitespace]
  rw [p1, p2, p3, p4]
  refine Eq.trans (congrArg trimStr ?_) p6
  refine runRepl_nofire _ azSp ?_ t hl ?_
  · intro x c cs hx _ _
    have hxn : x ≠ '\n' := ne_of_azSp x '\n' hx (by decide)
    simp [atLS, hxn]
  · intro c cs he
    have hc : azSp c = true := hl c (he ▸ List.mem_cons_self c cs)
    have hcs : c ≠ ' ' := fun hq => hh (by rw [he, hq]; rfl)
    have hcn : c ≠ '\n' := ne_of_azSp c '\n' hc (by decide)
    simp [atLS, wsToLineEnd_plain c cs (azSp_notWs c hc hcs) hcn]

theorem plainTx_parts (t : Str) (h : plainTx t = true) :
    (∀ x ∈ t, azSp x = true) ∧ noTwoSp t = true ∧
      t.head? ≠ some ' ' ∧ t.getLast? ≠ some ' ' := by
  have h1 := h
  simp only [plainTx, Bool.and_eq_true, Bool.not_eq_true', beq_eq_false_iff_ne,
    List.all_eq_true, ne_eq] at h1
  exact ⟨fun x hx => h1.1.1.1 x hx, h1.1.1.2, h1.1.2, h1.2⟩

theorem format_plain (t q : Str) (hq : VerifiedLinks.detectRelevantLinks q = [])
    (ht : plainTx t = true) : Formatter.format t q = t := by
  obtain ⟨hl, hns, hh, hgl⟩ := plainTx_parts t ht
  have f1 : Formatter.stripMarkdown t = t := stripMarkdown_plain t hl
  have f2 : VerifiedLinks.stripAllUrls t = t := stripAllUrls_plain t hl hns hh hgl
  have f3 : Formatter.cleanWhitespace t = t := cleanWhitespace_plain t hl hns hh hgl
  have f6 : trimStr t = t := trimStr_plain t hl hh hgl
  simp only [Formatter.format, f1, f2, f3, hq, List.length_nil, gt_iff_lt,
    Nat.lt_irrefl, if_false, f6]

/-- Claim C4, counterexample: the output formatter is not idempotent.  For
the text "Visit the site" and the query "website" the first run appends the
verified website link; the second run strips the appended URL, leaving a
dangling label line, and then appends the link again, so the results
differ. -/
theorem c4_counterexample :
    Formatter.format (Formatter.format "Visit the site".toList "website".toList)
        "website".toList ≠
      Formatter.format "Visit the site".toList "website".toList := by
  decide

/-- Claim C4, amended: the formatter is idempotent on runs in which the
query triggers no verified link and the text is plain (lowercase words in
single spaces, trimmed); on such input format is the identity, so a second
application changes nothing.  The counterexample shows idempotence fails in
general via the link-appending stage. -/
theorem c4_amended (t q : Str) (hq : VerifiedLinks.detectRelevantLinks q = [])
    (ht : plainTx t = true) :
    Formatter.format (Formatter.format t q) q = Formatter.format t q := by
  rw [format_plain t q hq ht]
  exact format_plain t q hq ht

/-- Witness for the amended claim C4 at a concrete text and query. -/
theorem c4_witness :
    VerifiedLinks.detectRelevantLinks "hello there".toList = [] ∧
    plainTx "visit the page".toList = true ∧
    Formatter.format (Formatter.format "visit the page".toList "hello there".toList)
        "hello there".toList =
      Formatter.format "visit the page".toList "hello there".toList :=
  ⟨by decide, by decide, c4_amended _ _ (by decide) (by decide)⟩
